import Mathlib

/-!
A verification development for the pygitlet version-control engine
(`src/pygitlet/commands.py`).  The Python code is shallowly embedded:

* file and branch names are `String`s; file contents are `String`s;
* SHA-1 is modelled as an injective function; since the code only ever
  compares hashes for equality and SHA-1 is collision-free in practice,
  a blob's hash is modelled by its contents and a commit's hash by the
  commit value itself (the commit store is a list of commits, membership
  standing for `commits/<hash>` existing on disk);
* `frozendict` maps are association lists with frozendict's update rules
  (update-in-place, append-if-new);
* the file system (working directory, stage directory, blob and commit
  stores, branch files and the current-branch symlink) is an explicit
  `RepoState`; each operation returns the resulting state together with
  `Option PErr`, `some e` standing for a raised Python exception, the
  returned state retaining whatever side effects happened before the
  raise, exactly as the on-disk state would.
-/

namespace Pygitlet

/-- Association-list lookup: first entry with the given key (Python dict lookup). -/
def lookupA {α : Type} [DecidableEq α] {β : Type} (l : List (α × β)) (k : α) : Option β :=
  match l with
  | [] => none
  | (k', v) :: rest => if k' = k then some v else lookupA rest k

/-- Association-list update: replaces the first entry with the key in place,
appends at the end if the key is absent (frozendict `set`). -/
def setA {α : Type} [DecidableEq α] {β : Type} (l : List (α × β)) (k : α) (v : β) :
    List (α × β) :=
  match l with
  | [] => [(k, v)]
  | (k', v') :: rest => if k' = k then (k, v) :: rest else (k', v') :: setA rest k v

/-- Association-list deletion: removes every entry with the key
(frozendict `delete`; under unique keys, exactly one entry). -/
def delA {α : Type} [DecidableEq α] {β : Type} : List (α × β) → α → List (α × β)
  | [], _ => []
  | (k', v') :: rest, k => if k' = k then delA rest k else (k', v') :: delA rest k

/-- Key membership in an association list (Python `in` on a dict / file existence). -/
def memA {α : Type} [DecidableEq α] {β : Type} (l : List (α × β)) (k : α) : Bool :=
  (lookupA l k).isSome

/-- Staging-diff tag of a blob (`Diff` in the source). -/
inductive Diff where
  | added
  | deleted
  | modified
deriving DecidableEq, Repr

/-- SHA-1 of a string, modelled as an injective function: collision-freedom
in practice means equality of hashes coincides with equality of contents,
so the hash is represented by the contents themselves. -/
def hash_contents (s : String) : String := s

/-- A file blob: path identity, text contents, staging-diff tag. -/
structure Blob where
  name : String
  contents : String
  diff : Diff
deriving DecidableEq, Repr

/-- A blob's hash is the SHA-1 of its contents (see `hash_contents`). -/
def Blob.hash (b : Blob) : String := hash_contents b.contents

/-- A commit: timestamp, message, parent commits, and the snapshot map from
paths to blobs (`file_blob_map`, a frozendict embedded as an association list). -/
inductive Commit where
  | mk (timestamp : Int) (message : String) (parents : List Commit)
      (fileBlobMap : List (String × Blob))

/-- Timestamp of a commit. -/
def Commit.timestamp : Commit → Int
  | .mk t _ _ _ => t

/-- Message of a commit. -/
def Commit.message : Commit → String
  | .mk _ m _ _ => m

/-- Parents of a commit. -/
def Commit.parents : Commit → List Commit
  | .mk _ _ ps _ => ps

/-- Path-to-blob snapshot of a commit. -/
def Commit.fileBlobMap : Commit → List (String × Blob)
  | .mk _ _ _ fb => fb

/-- Structural (Python dataclass) equality of commits is decidable. -/
def Commit.beq : Commit → Commit → Bool
  | .mk t1 m1 ps1 fb1, .mk t2 m2 ps2 fb2 =>
    t1 == t2 && m1 == m2 && beqList ps1 ps2 && fb1 == fb2
where
  /-- Pointwise `Commit.beq` on lists of parents. -/
  beqList : List Commit → List Commit → Bool
    | [], [] => true
    | c :: cs, d :: ds => Commit.beq c d && beqList cs ds
    | _, _ => false

mutual

theorem Commit.beq_refl : ∀ c : Commit, Commit.beq c c = true
  | .mk t m ps fb => by
    simp [Commit.beq, Commit.beqList_refl ps]

theorem Commit.beqList_refl : ∀ l : List Commit, Commit.beq.beqList l l = true
  | [] => rfl
  | c :: cs => by
    simp only [Commit.beq.beqList, Bool.and_eq_true]
    exact ⟨Commit.beq_refl c, Commit.beqList_refl cs⟩

end

mutual

theorem Commit.eq_of_beq : ∀ {c d : Commit}, Commit.beq c d = true → c = d
  | .mk t1 m1 ps1 fb1, .mk t2 m2 ps2 fb2 => by
    intro h
    simp only [Commit.beq, Bool.and_eq_true, beq_iff_eq] at h
    obtain ⟨⟨⟨ht, hm⟩, hl⟩, hfb⟩ := h
    have := Commit.eqList_of_beqList hl
    subst ht hm hfb this
    rfl

theorem Commit.eqList_of_beqList : ∀ {l1 l2 : List Commit},
    Commit.beq.beqList l1 l2 = true → l1 = l2
  | [], [], _ => rfl
  | c :: cs, d :: ds, h => by
    simp only [Commit.beq.beqList, Bool.and_eq_true] at h
    have h1 := Commit.eq_of_beq h.1
    have h2 := Commit.eqList_of_beqList h.2
    rw [h1, h2]
  | [], _ :: _, h => by simp [Commit.beq.beqList] at h
  | _ :: _, [], h => by simp [Commit.beq.beqList] at h

end

instance : DecidableEq Commit := fun c d =>
  if h : Commit.beq c d = true then
    isTrue (Commit.eq_of_beq h)
  else
    isFalse (fun he => h (he ▸ Commit.beq_refl c))

mutual

/-- Size of a commit (number of commit constructors), used as a termination
measure for the breadth-first traversal. -/
def Commit.csize : Commit → Nat
  | .mk _ _ ps _ => 1 + csizeL ps

/-- Total size of a list of commits. -/
def csizeL : List Commit → Nat
  | [] => 0
  | c :: cs => Commit.csize c + csizeL cs

end

theorem csizeL_append (l1 l2 : List Commit) :
    csizeL (l1 ++ l2) = csizeL l1 + csizeL l2 := by
  induction l1 with
  | nil => simp [csizeL]
  | cons c cs ih => simp [csizeL, ih]; ring

theorem csize_pos (c : Commit) : 0 < c.csize := by
  cases c with
  | mk t m ps fb => simp [Commit.csize]

theorem csize_eq (t : Int) (m : String) (ps : List Commit) (fb : List (String × Blob)) :
    (Commit.mk t m ps fb).csize = 1 + csizeL ps := rfl

/-- Breadth-first traversal loop of `commit_history`: pops the head of the
queue; if unseen, appends it to the visited list and enqueues its parents
(the source's inner `commit_bfs not in commit_bfs` guard is vacuously true
in Python — a list is never an element of itself — so parents are always
enqueued). -/
def bfs (queue visited : List Commit) : List Commit :=
  match queue with
  | [] => visited
  | c :: rest =>
    if c ∈ visited then bfs rest visited
    else bfs (rest ++ c.parents) (visited ++ [c])
termination_by csizeL queue
decreasing_by
  · simp only [csizeL]
    have := csize_pos c
    omega
  · cases c with
    | mk t m ps fb =>
      simp only [csizeL, csizeL_append, Commit.parents, csize_eq]
      omega

/-- The breadth-first loop again, structurally recursive on an explicit
step budget so that the kernel can evaluate it; `bfs_eq_bfsGo` shows it
agrees with `bfs` whenever the budget is at least `csizeL queue`, which
strictly bounds the number of loop iterations. -/
def bfsGo : Nat → List Commit → List Commit → List Commit
  | _, [], visited => visited
  | 0, _ :: _, visited => visited
  | fuel + 1, c :: rest, visited =>
    if c ∈ visited then bfsGo fuel rest visited
    else bfsGo fuel (rest ++ c.parents) (visited ++ [c])

theorem bfs_eq_bfsGo : ∀ (fuel : Nat) (q v : List Commit), csizeL q ≤ fuel →
    bfsGo fuel q v = bfs q v := by
  intro fuel
  induction fuel with
  | zero =>
    intro q v h
    cases q with
    | nil => unfold bfs; rfl
    | cons c rest =>
      exfalso
      have := csize_pos c
      simp only [csizeL] at h
      omega
  | succ f ih =>
    intro q v h
    cases q with
    | nil => unfold bfs; rfl
    | cons c rest =>
      unfold bfs
      by_cases hc : c ∈ v
      · rw [bfsGo, if_pos hc, if_pos hc]
        apply ih
        have := csize_pos c
        simp only [csizeL] at h
        omega
      · rw [bfsGo, if_neg hc, if_neg hc]
        apply ih
        cases c with
        | mk t m ps fb =>
          simp only [csizeL, csize_eq, csizeL_append, Commit.parents] at h ⊢
          omega

/-- Embedding of `commit_history`: breadth-first traversal over parents,
deduplicating at dequeue time (the budgeted loop, with a budget large
enough that it runs the queue dry, exactly as the source's `while` loop). -/
def commit_history (c : Commit) : List Commit := bfsGo (Commit.csize c) [c] []

theorem commit_history_eq_bfs (c : Commit) : commit_history c = bfs [c] [] := by
  rw [commit_history, bfs_eq_bfsGo]
  simp [csizeL]

/-- Embedding of `latest_common_ancestor`: reverse both histories, zip them,
keep the positions at which they agree, and take the last such element.
Python's `[-1]` on an empty list raises `IndexError`; this is modelled by
`none`. -/
def latest_common_ancestor (a b : Commit) : Option Commit :=
  let ra := (commit_history a).reverse
  let rb := (commit_history b).reverse
  ((ra.zip rb).filter (fun pr => pr.1 = pr.2)).getLast?.map Prod.fst

/-- Embedding of `generate_conflict`: the fixed conflict-marker body built
from the two sides' literal contents. -/
def generate_conflict (origin target : String) : String :=
  "<<<<<<< HEAD\n" ++ origin ++ "=======\n" ++ target ++ ">>>>>>>\n"

/-- A branch: a named pointer to a commit, with the current flag and the
optional remote namespace. -/
structure Branch where
  local_name : String
  commit : Commit
  is_current : Bool
  remote : Option String
deriving DecidableEq

/-- Display name of a branch: `remote/local_name` for remote-tracking
branches, the bare local name otherwise. -/
def Branch.name (b : Branch) : String :=
  match b.remote with
  | none => b.local_name
  | some r => r ++ "/" ++ b.local_name

/-- The persistent state of one repository: the working directory, the stage
directory, the blob store (keyed by the string used as the file name under
`blobs/`), the commit store (a commit's presence stands for the file
`commits/<hash>` existing, the hash being injective), the branch files keyed
by their full name, the name targeted by the current-branch symlink, and the
lines printed to standard output. -/
structure RepoState where
  workdir : List (String × String)
  stage : List (String × Blob)
  blobs : List (String × Blob)
  commits : List Commit
  branches : List (String × Branch)
  cur : String
  output : List String
deriving DecidableEq

/-- Errors: each `PyGitletException` message gets a constructor; `ioError`
stands for an unhandled Python exception (`FileNotFoundError` from a strict
read or unlink, `IndexError` from `[-1]` on an empty list, a dangling
current-branch symlink). -/
inductive PErr where
  | emptyStage
  | emptyMessage
  | fileNotFound
  | nothingToRemove
  | noSuchBranch
  | alreadyCurrent
  | branchExists
  | cannotRemoveCurrent
  | untrackedFileConflict
  | uncommittedChanges
  | selfMerge
  | remoteNotFound
  | remoteBranchNotFound
  | nonFastForward
  | noSuchCommit
  | fileNotInCommit
  | ioError
deriving DecidableEq, Repr

/-- Reads a working-directory file. -/
def wdRead (s : RepoState) (p : String) : Option String := lookupA s.workdir p

/-- Writes a working-directory file (`write_text`). -/
def wdWrite (s : RepoState) (p : String) (c : String) : RepoState :=
  { s with workdir := setA s.workdir p c }

/-- Deletes a working-directory file. -/
def wdDelete (s : RepoState) (p : String) : RepoState :=
  { s with workdir := delA s.workdir p }

/-- Writes a blob file under `blobs/<key>`. -/
def blobWrite (s : RepoState) (k : String) (b : Blob) : RepoState :=
  { s with blobs := setA s.blobs k b }

/-- Writes a commit file under `commits/<hash>`.  Since the hash determines
the commit, overwriting an existing file with identical content is the same
as inserting the commit if absent. -/
def commitWrite (s : RepoState) (c : Commit) : RepoState :=
  if c ∈ s.commits then s else { s with commits := s.commits ++ [c] }

/-- Appends a line to standard output. -/
def printLine (s : RepoState) (msg : String) : RepoState :=
  { s with output := s.output ++ [msg] }

/-- Embedding of `write_branch`: persists the branch under its full name and,
when it is current, repoints the current-branch symlink to it. -/
def write_branch (s : RepoState) (b : Branch) : RepoState :=
  let s' := { s with branches := setA s.branches b.name b }
  if b.is_current then { s' with cur := b.name } else s'

/-- Embedding of `init` followed by user file creation: the fresh repository
state over a given working directory (root commit, single current branch
`main`). -/
def initState (wd : List (String × String)) : RepoState :=
  { workdir := wd
    stage := []
    blobs := []
    commits := [Commit.mk 0 "initial commit" [] []]
    branches := [("main", ⟨"main", Commit.mk 0 "initial commit" [] [], true, none⟩)]
    cur := "main"
    output := [] }

/-- Runs a per-element action over a list, threading the state and stopping
at the first raised exception (a Python `for` loop whose body may raise). -/
def stepList {α σ : Type} (f : α → σ → σ × Option PErr) :
    List α → σ → σ × Option PErr
  | [], st => (st, none)
  | a :: rest, st =>
    match f a st with
    | (st', none) => stepList f rest st'
    | (st', some e) => (st', some e)

/-- Embedding of `add`: an already staged entry short-circuits (flipping
`Deleted` back to `Added`); otherwise the working file is read, classified
against the current commit, and staged unless it matches the tracked blob. -/
def add (s : RepoState) (p : String) : RepoState × Option PErr :=
  match lookupA s.stage p with
  | some staged =>
    if staged.diff = Diff.deleted then
      ({ s with stage := setA s.stage p { staged with diff := Diff.added } }, none)
    else (s, none)
  | none =>
    match wdRead s p with
    | none => (s, some PErr.fileNotFound)
    | some contents =>
      match lookupA s.branches s.cur with
      | none => (s, some PErr.ioError)
      | some cb =>
        let cc := cb.commit
        let blob : Blob :=
          ⟨p, contents, if memA cc.fileBlobMap p then Diff.modified else Diff.added⟩
        match lookupA cc.fileBlobMap p with
        | some tracked =>
          if tracked.hash = blob.hash then
            ({ s with stage := delA s.stage p }, none)
          else ({ s with stage := setA s.stage p blob }, none)
        | none => ({ s with stage := setA s.stage p blob }, none)

/-- The stage-folding loop shared by `commit` and `merge_commit` (source
lines 280-289 and 928-937), iterated over the stage-directory snapshot with
the staged file unlinked at the end of each iteration (the stage list is
the directory, so unlinking the processed head leaves `rest`): persists the
blob when it is not yet stored **or** its diff is not `Deleted` (the
source's condition, line 283/931), then updates the file-blob map — a
non-`Deleted` entry sets its key, a `Deleted` entry calls
`frozendict.delete`, which raises `KeyError` (modelled `PErr.ioError`) when
the key is absent, with the blob already persisted and the raising entry
still staged. -/
def foldStage : List (String × Blob) → RepoState × List (String × Blob) →
    (RepoState × List (String × Blob)) × Option PErr
  | [], acc => (acc, none)
  | (_, b) :: rest, (s, bd) =>
    let s1 := if ¬ memA s.blobs b.hash ∨ b.diff ≠ Diff.deleted then blobWrite s b.hash b else s
    if b.diff ≠ Diff.deleted then
      foldStage rest ({ s1 with stage := rest }, setA bd b.name b)
    else if memA bd b.name then
      foldStage rest ({ s1 with stage := rest }, delA bd b.name)
    else ((s1, bd), some PErr.ioError)

/-- Embedding of `commit`: guards, stage fold (whose `KeyError` aborts the
commit with the blob writes and stage unlinks so far retained), new commit
with a single parent, branch move.  The wall-clock timestamp is the `now`
parameter. -/
def commitOp (s : RepoState) (message : String) (now : Int) : RepoState × Option PErr :=
  if s.stage = [] then (s, some PErr.emptyStage)
  else if message = "" then (s, some PErr.emptyMessage)
  else
    match lookupA s.branches s.cur with
    | none => (s, some PErr.ioError)
    | some cb =>
      match foldStage s.stage (s, cb.commit.fileBlobMap) with
      | ((s1, _), some e) => (s1, some e)
      | ((s1, bd), none) =>
        let c := Commit.mk now message [cb.commit] bd
        let s3 := commitWrite s1 c
        (write_branch s3 { cb with commit := c }, none)

/-- Embedding of `remove`: the `NothingToRemove` guard, deletion of any
staged entry, a strict read of the working file (raising when it is
absent), staging of a `Deleted` blob with the read contents, and deletion
of the working file. -/
def removeOp (s : RepoState) (p : String) : RepoState × Option PErr :=
  match lookupA s.branches s.cur with
  | none => (s, some PErr.ioError)
  | some cb =>
    if ¬ memA s.stage p ∧ ¬ memA cb.commit.fileBlobMap p then
      (s, some PErr.nothingToRemove)
    else
      let s1 := { s with stage := delA s.stage p }
      match wdRead s1 p with
      | none => (s1, some PErr.ioError)
      | some contents =>
        let s2 := { s1 with stage := setA s1.stage p ⟨p, contents, Diff.deleted⟩ }
        (wdDelete s2 p, none)

/-- Embedding of `checkout_commit` called with a full hash: the commit must
be in the store and must track the path; the working file is overwritten
with the blob's contents. -/
def checkout_commit (s : RepoState) (cid : Commit) (p : String) : RepoState × Option PErr :=
  if cid ∈ s.commits then
    match lookupA cid.fileBlobMap p with
    | none => (s, some PErr.fileNotInCommit)
    | some b => (wdWrite s p b.contents, none)
  else (s, some PErr.noSuchCommit)

/-- The write half of the checkout/reset synchronisation loop (source lines
642-651 and 722-728): the untracked-file guard against the current commit's
map, then the overwrite with the target blob's contents. -/
def syncWriteStep (curMap : List (String × Blob)) (pr : String × Blob)
    (s : RepoState) : RepoState × Option PErr :=
  if (wdRead s pr.1).isSome ∧ ¬ memA curMap pr.1 then
    (s, some PErr.untrackedFileConflict)
  else (wdWrite s pr.1 pr.2.contents, none)

/-- The delete half of the checkout/reset synchronisation loop: files tracked
by the current commit but not by the target are unlinked (strictly — a
missing file raises). -/
def syncDeleteStep (tgtMap : List (String × Blob)) (pr : String × Blob)
    (s : RepoState) : RepoState × Option PErr :=
  if ¬ memA tgtMap pr.1 then
    match wdRead s pr.1 with
    | none => (s, some PErr.ioError)
    | some _ => (wdDelete s pr.1, none)
  else (s, none)

/-- Embedding of `checkout_branch`: guards, the two synchronisation loops,
stage cleared, and the current flag flipped between the two branches. -/
def checkout_branch (s : RepoState) (branchName : String) : RepoState × Option PErr :=
  match lookupA s.branches s.cur with
  | none => (s, some PErr.ioError)
  | some cb =>
    match lookupA s.branches branchName with
    | none => (s, some PErr.noSuchBranch)
    | some tb =>
      if cb.name = branchName then (s, some PErr.alreadyCurrent)
      else
        match stepList (syncWriteStep cb.commit.fileBlobMap) tb.commit.fileBlobMap s with
        | (s1, some e) => (s1, some e)
        | (s1, none) =>
          match stepList (syncDeleteStep tb.commit.fileBlobMap) cb.commit.fileBlobMap s1 with
          | (s2, some e) => (s2, some e)
          | (s2, none) =>
            let s3 := { s2 with stage := [] }
            let s4 := write_branch s3 { cb with is_current := false }
            (write_branch s4 { tb with is_current := true }, none)

/-- Embedding of `branch`: creates a new, non-current branch at the current
commit. -/
def branchOp (s : RepoState) (name : String) : RepoState × Option PErr :=
  if memA s.branches name then (s, some PErr.branchExists)
  else
    match lookupA s.branches s.cur with
    | none => (s, some PErr.ioError)
    | some cb => (write_branch s ⟨name, cb.commit, false, none⟩, none)

/-- Embedding of `remove_branch`: deletes a non-current branch file. -/
def remove_branchOp (s : RepoState) (name : String) : RepoState × Option PErr :=
  if ¬ memA s.branches name then (s, some PErr.noSuchBranch)
  else
    match lookupA s.branches s.cur with
    | none => (s, some PErr.ioError)
    | some cb =>
      if cb.name = name then (s, some PErr.cannotRemoveCurrent)
      else ({ s with branches := delA s.branches name }, none)

/-- Embedding of `reset`: like `checkout_branch` against a bare commit, then
the current branch (re-read, as in the source) is moved to the target
commit. -/
def resetOp (s : RepoState) (cid : Commit) : RepoState × Option PErr :=
  if cid ∈ s.commits then
    match lookupA s.branches s.cur with
    | none => (s, some PErr.ioError)
    | some cb =>
      match stepList (syncWriteStep cb.commit.fileBlobMap) cid.fileBlobMap s with
      | (s1, some e) => (s1, some e)
      | (s1, none) =>
        match stepList (syncDeleteStep cid.fileBlobMap) cb.commit.fileBlobMap s1 with
        | (s2, some e) => (s2, some e)
        | (s2, none) =>
          let s3 := { s2 with stage := [] }
          match lookupA s3.branches s3.cur with
          | none => (s3, some PErr.ioError)
          | some cb2 => (write_branch s3 { cb2 with commit := cid }, none)
  else (s, some PErr.noSuchCommit)

/-- The source's line 874 compares the Blob `origin_blob_map[file_name]`
against the string `blob.hash`; in Python a dataclass instance and a `str`
are never equal, so this inequality test is always true. -/
def blobNeqHashStr (_b : Blob) (_h : String) : Bool := true

/-- The per-file body of the first merge loop (over the target commit's map,
source lines 837-882): untracked-file guard, then the classification by
membership in the LCA's and the origin's maps.  The threaded state carries
the `conflicted` flag. -/
def mergeStep1 (ocMap lcaMap : List (String × Blob)) (tc : Commit)
    (pr : String × Blob) (st : RepoState × Bool) : (RepoState × Bool) × Option PErr :=
  let s := st.1
  let confl := st.2
  let p := pr.1
  let blob := pr.2
  if (wdRead s p).isSome ∧ ¬ memA ocMap p then
    (st, some PErr.untrackedFileConflict)
  else
    match lookupA lcaMap p with
    | none =>
      match lookupA ocMap p with
      | some ob =>
        if ob.hash ≠ blob.hash then
          let s1 := wdWrite s p (generate_conflict ob.contents blob.contents)
          let r := add s1 p
          ((r.1, true), r.2)
        else
          match checkout_commit s tc p with
          | (s1, some e) => ((s1, confl), some e)
          | (s1, none) =>
            let r := add s1 p
            ((r.1, confl), r.2)
      | none =>
        match checkout_commit s tc p with
        | (s1, some e) => ((s1, confl), some e)
        | (s1, none) =>
          let r := add s1 p
          ((r.1, confl), r.2)
    | some lb =>
      if lb.hash ≠ blob.hash ∧ ¬ memA ocMap p then
        let s1 := wdWrite s p (generate_conflict "\n" blob.contents)
        let r := add s1 p
        ((r.1, true), r.2)
      else
        match lookupA ocMap p with
        | some ob =>
          if lb.hash ≠ blob.hash ∧ lb ≠ ob ∧ blobNeqHashStr ob blob.hash then
            let s1 := wdWrite s p (generate_conflict ob.contents blob.contents)
            let r := add s1 p
            ((r.1, true), r.2)
          else ((s, confl), none)
        | none => ((s, confl), none)

/-- The per-file body of the second merge loop (over the origin commit's
map, source lines 884-905): deletion-versus-modification conflicts, silent
target updates, and staged removals. -/
def mergeStep2 (tcMap lcaMap : List (String × Blob)) (tc : Commit)
    (pr : String × Blob) (st : RepoState × Bool) : (RepoState × Bool) × Option PErr :=
  let s := st.1
  let confl := st.2
  let p := pr.1
  let blob := pr.2
  match lookupA lcaMap p with
  | none => ((s, confl), none)
  | some lb =>
    match lookupA tcMap p with
    | none =>
      if lb.hash ≠ blob.hash then
        let s1 := wdWrite s p (generate_conflict blob.contents "\n")
        let r := add s1 p
        ((r.1, true), r.2)
      else
        let r := removeOp s p
        ((r.1, confl), r.2)
    | some tblob =>
      if lb.hash = blob.hash ∧ lb.hash ≠ tblob.hash then
        match checkout_commit s tc p with
        | (s1, some e) => ((s1, confl), some e)
        | (s1, none) =>
          let r := add s1 p
          ((r.1, confl), r.2)
      else ((s, confl), none)

/-- Embedding of `merge_commit`: the stage fold of `commit` with two parents
and the fixed merge message; the fold's `KeyError` propagates with the
partial blob writes and stage unlinks retained. -/
def merge_commitOp (s : RepoState) (ob tb : Branch) (now : Int) : RepoState × Option PErr :=
  match foldStage s.stage (s, ob.commit.fileBlobMap) with
  | ((s1, _), some e) => (s1, some e)
  | ((s1, bd), none) =>
    let c := Commit.mk now ("Merged " ++ tb.name ++ " into " ++ ob.name)
      [ob.commit, tb.commit] bd
    let s3 := commitWrite s1 c
    (write_branch s3 { ob with commit := c }, none)

/-- Embedding of `merge`: the three guards, the LCA (an ancestor target or a
fast-forward short-circuits), then the two per-file loops and the merge
commit; a final conflict message is printed when any file conflicted. -/
def mergeOp (s : RepoState) (targetName : String) (now : Int) : RepoState × Option PErr :=
  if s.stage ≠ [] then (s, some PErr.uncommittedChanges)
  else if ¬ memA s.branches targetName then (s, some PErr.noSuchBranch)
  else
    match lookupA s.branches s.cur with
    | none => (s, some PErr.ioError)
    | some cb0 =>
      if cb0.name = targetName then (s, some PErr.selfMerge)
      else
        match lookupA s.branches targetName with
        | none => (s, some PErr.ioError)
        | some tb =>
          let oc := cb0.commit
          let tc := tb.commit
          match latest_common_ancestor oc tc with
          | none => (s, some PErr.ioError)
          | some lca =>
            if lca = tc then
              (printLine s "Given branch is an ancestor of the current branch.", none)
            else if lca = oc then
              match checkout_branch s tb.name with
              | (s1, some e) => (s1, some e)
              | (s1, none) => (printLine s1 "Current branch fast-forwarded.", none)
            else
              match stepList (mergeStep1 oc.fileBlobMap lca.fileBlobMap tc)
                  tc.fileBlobMap (s, false) with
              | ((s1, _), some e) => (s1, some e)
              | ((s1, confl1), none) =>
                match stepList (mergeStep2 tc.fileBlobMap lca.fileBlobMap tc)
                    oc.fileBlobMap (s1, confl1) with
                | ((s2, _), some e) => (s2, some e)
                | ((s2, confl2), none) =>
                  match lookupA s2.branches s2.cur with
                  | none => (s2, some PErr.ioError)
                  | some cb1 =>
                    match merge_commitOp s2 cb1 tb now with
                    | (s3, some e) => (s3, some e)
                    | (s3, none) =>
                      (if confl2 then printLine s3 "Encountered a merge conflict." else s3,
                        none)

/-- Embedding of `fetch`: every commit in the remote tip's history is copied
into the local commit store; for each such commit the blob of every map
entry is copied under the entry's **key** (the source's loop variable is
named `blob_hash`, but `file_blob_map` is keyed by file paths, so the blobs
land under `blobs/<path>`); finally the remote-tracking branch file is
written directly (not through `write_branch`), non-current, at the first
element of the history.  An absent remote models a dangling `.gitlet`
symlink. -/
def fetchOp (s : RepoState) (remoteName : String) (remote : Option RepoState)
    (branchName : String) : RepoState × Option PErr :=
  match remote with
  | none => (s, some PErr.remoteNotFound)
  | some rs =>
    match lookupA rs.branches branchName with
    | none => (s, some PErr.remoteBranchNotFound)
    | some rb =>
      let hist := commit_history rb.commit
      let s1 := hist.foldl
        (fun acc c =>
          let acc1 := commitWrite acc c
          c.fileBlobMap.foldl
            (fun acc2 pr =>
              if memA acc2.blobs pr.1 then acc2 else blobWrite acc2 pr.1 pr.2)
            acc1)
        s
      match hist with
      | [] => (s1, some PErr.ioError)
      | tip :: _ =>
        let nb : Branch := ⟨branchName, tip, false, some remoteName⟩
        ({ s1 with branches := setA s1.branches (remoteName ++ "/" ++ branchName) nb },
          none)

/-- Embedding of `push`: when the remote lacks the named branch, the local
**current** branch (current flag cleared) is written to the remote under its
own name; otherwise the locally recorded remote-tracking branch file is
read, its tip must occur in the local history (else `NonFastForward`), the
later commits are copied, and the remote is `reset` to the local tip.  The
local repository is never modified; the possibly updated remote state is
returned. -/
def pushOp (s : RepoState) (remoteName : String) (remote : Option RepoState)
    (branchName : String) : Option RepoState × Option PErr :=
  match remote with
  | none => (none, some PErr.remoteNotFound)
  | some rs =>
    if ¬ memA rs.branches branchName then
      match lookupA s.branches s.cur with
      | none => (some rs, some PErr.ioError)
      | some cb => (some (write_branch rs { cb with is_current := false }), none)
    else
      match lookupA s.branches (remoteName ++ "/" ++ branchName) with
      | none => (some rs, some PErr.ioError)
      | some trk =>
        match lookupA s.branches s.cur with
        | none => (some rs, some PErr.ioError)
        | some cb =>
          let hist := (commit_history cb.commit).reverse
          if trk.commit ∈ hist then
            let i := hist.findIdx (· = trk.commit)
            let toPush := hist.drop (i + 1)
            let rs1 := toPush.foldl commitWrite rs
            let r := resetOp rs1 cb.commit
            (some r.1, r.2)
          else (some rs, some PErr.nonFastForward)

/-- Embedding of `pull`: `fetch` then `merge` of the remote-tracking
branch. -/
def pullOp (s : RepoState) (remoteName : String) (remote : Option RepoState)
    (branchName : String) (now : Int) : RepoState × Option PErr :=
  match fetchOp s remoteName remote branchName with
  | (s1, some e) => (s1, some e)
  | (s1, none) => mergeOp s1 (remoteName ++ "/" ++ branchName) now

/-- Spec-side reading of the LCA sentence as amended: the element at the
last position at which the two (root-first) sequences agree element-for-
element, `none` when no position agrees. -/
def lastAgree : List Commit → List Commit → Option Commit
  | a :: as, b :: bs =>
    match lastAgree as bs with
    | some c => some c
    | none => if a = b then some a else none
  | _, _ => none

/-- Spec-side reading of the original LCA sentence: the last element of the
longest common rooted stem of the two sequences (the element-wise common
part starting at position zero). -/
def lastOfCommonStem : List Commit → List Commit → Option Commit
  | a :: as, b :: bs =>
    if a = b then
      match lastOfCommonStem as bs with
      | some c => some c
      | none => some a
    else none
  | _, _ => none

/-- Ancestry along parent links: `ReachC c d` holds when `d` is `c` itself
or an iterated parent of `c`. -/
inductive ReachC : Commit → Commit → Prop
  | refl (c : Commit) : ReachC c c
  | step (c d p : Commit) : ReachC c d → p ∈ d.parents → ReachC c p

/-- The user-facing operations named by the reachability claim, with the
arguments each needs; remote-involving operations carry the remote
repository's state (`none` models a dangling remote path). -/
inductive Op where
  | addF (p : String)
  | commitF (msg : String) (now : Int)
  | branchF (name : String)
  | removeBranchF (name : String)
  | checkoutBranchF (name : String)
  | resetF (c : Commit)
  | mergeF (name : String) (now : Int)
  | fetchF (remoteName : String) (remote : Option RepoState) (branchName : String)
  | pushF (remoteName : String) (remote : Option RepoState) (branchName : String)
  | pullF (remoteName : String) (remote : Option RepoState) (branchName : String) (now : Int)

/-- Runs one operation on the local repository.  `push` writes only to the
remote, so the local state is returned unchanged alongside push's outcome. -/
def runOp (s : RepoState) : Op → RepoState × Option PErr
  | .addF p => add s p
  | .commitF m now => commitOp s m now
  | .branchF n => branchOp s n
  | .removeBranchF n => remove_branchOp s n
  | .checkoutBranchF n => checkout_branch s n
  | .resetF c => resetOp s c
  | .mergeF n now => mergeOp s n now
  | .fetchF rn r bn => fetchOp s rn r bn
  | .pushF rn r bn => (s, (pushOp s rn r bn).2)
  | .pullF rn r bn now => pullOp s rn r bn now

/-- States reachable from `init` by sequences of completed (non-raising)
operations — the reachability notion of the invariant claim. -/
inductive Reached : RepoState → Prop
  | base (wd : List (String × String)) : Reached (initState wd)
  | step (s s' : RepoState) (op : Op) : Reached s →
      runOp s op = (s', none) → Reached s'

/-- The side condition of the amended invariant claim: a fetch (or the fetch
half of a pull) must not target a remote-tracking branch that is currently
checked out — such a fetch overwrites the checked-out branch file with a
non-current copy. -/
def fetchGuard (s : RepoState) : Op → Prop
  | .fetchF rn _ bn => rn ++ "/" ++ bn ≠ s.cur
  | .pullF rn _ bn _ => rn ++ "/" ++ bn ≠ s.cur
  | _ => True

/-- States reachable from `init` by completed operations that respect the
fetch side condition of the amended invariant claim. -/
inductive ReachedSafe : RepoState → Prop
  | base (wd : List (String × String)) : ReachedSafe (initState wd)
  | step (s s' : RepoState) (op : Op) : ReachedSafe s → fetchGuard s op →
      runOp s op = (s', none) → ReachedSafe s'

/-- The branch-registry well-formedness carried through the reachability
induction: branch-file names are unique, each branch file records its own
name, the current-branch symlink resolves to a branch marked current, and
every branch marked current sits at the symlink's key. -/
def RegOK (s : RepoState) : Prop :=
  (s.branches.map Prod.fst).Nodup ∧
  (∀ pr ∈ s.branches, (pr.2).name = pr.1) ∧
  (∃ b, lookupA s.branches s.cur = some b ∧ b.is_current = true) ∧
  (∀ pr ∈ s.branches, (pr.2).is_current = true → pr.1 = s.cur)

/-! Concrete commits and states used by the counterexamples and witnesses. -/

/-- The root commit every repository starts from. -/
def exRoot : Commit := Commit.mk 0 "initial commit" [] []

/-- A chain `exD → exRoot`, `exC → exD`, `exA → exC` and a side commit
`exB → exRoot`, merged by `exT` with parents `[exA, exB]`. -/
def exD : Commit := Commit.mk 1 "D" [exRoot] []

/-- See `exD`. -/
def exC : Commit := Commit.mk 2 "C" [exD] []

/-- See `exD`. -/
def exA : Commit := Commit.mk 3 "A" [exC] []

/-- See `exD`. -/
def exB : Commit := Commit.mk 4 "B" [exRoot] []

/-- A merge commit whose breadth-first history places the root before
`exD`. -/
def exT : Commit := Commit.mk 5 "T" [exA, exB] []

/-- Blob `f ↦ "a"` as first committed. -/
def m1BlobA : Blob := ⟨"f", "a", Diff.added⟩

/-- Blob `f ↦ "b"` as modified on either branch. -/
def m1BlobB : Blob := ⟨"f", "b", Diff.modified⟩

/-- The split-point commit tracking `f ↦ "a"`. -/
def m1Lca : Commit := Commit.mk 10 "base" [exRoot] [("f", m1BlobA)]

/-- The current branch's commit, which changed `f` to `"b"`. -/
def m1Origin : Commit := Commit.mk 11 "origin side" [m1Lca] [("f", m1BlobB)]

/-- The target branch's commit, which also changed `f` to `"b"` — the same
new content hash as the origin side. -/
def m1Target : Commit := Commit.mk 12 "target side" [m1Lca] [("f", m1BlobB)]

/-- A repository about to merge `other` into `main` where both sides changed
`f` from `"a"` to the same `"b"`. -/
def m1State : RepoState :=
  { workdir := [("f", "b")]
    stage := []
    blobs := [("a", m1BlobA), ("b", m1BlobB)]
    commits := [exRoot, m1Lca, m1Origin, m1Target]
    branches := [("main", ⟨"main", m1Origin, true, none⟩),
                 ("other", ⟨"other", m1Target, false, none⟩)]
    cur := "main"
    output := [] }

/-- A repository whose only staged entry is a `Deleted` blob whose hash is
not yet in the blob store. -/
def c4State : RepoState :=
  { workdir := []
    stage := [("p", ⟨"p", "c", Diff.deleted⟩)]
    blobs := []
    commits := [exRoot]
    branches := [("main", ⟨"main", exRoot, true, none⟩)]
    cur := "main"
    output := [] }

/-- A repository with one staged `Added` entry, used to exercise the
successful path of `commit`. -/
def c4Witness : RepoState :=
  { workdir := [("q", "v")]
    stage := [("q", ⟨"q", "v", Diff.added⟩)]
    blobs := []
    commits := [exRoot]
    branches := [("main", ⟨"main", exRoot, true, none⟩)]
    cur := "main"
    output := [] }

/-- A commit tracking `p ↦ "a"`. -/
def c6Commit : Commit := Commit.mk 1 "track p" [exRoot] [("p", ⟨"p", "a", Diff.added⟩)]

/-- A repository whose current commit tracks `p`, with the working file `p`
deleted by the user and nothing staged. -/
def c6State : RepoState :=
  { workdir := []
    stage := []
    blobs := [("a", ⟨"p", "a", Diff.added⟩)]
    commits := [exRoot, c6Commit]
    branches := [("main", ⟨"main", c6Commit, true, none⟩)]
    cur := "main"
    output := [] }

/-- Like `c6State` but with the working file `p` still present. -/
def c6Present : RepoState :=
  { workdir := [("p", "a")]
    stage := []
    blobs := [("a", ⟨"p", "a", Diff.added⟩)]
    commits := [exRoot, c6Commit]
    branches := [("main", ⟨"main", c6Commit, true, none⟩)]
    cur := "main"
    output := [] }

/-- A remote commit tracking the path `a.txt` with contents `"x"` (whose
content hash is the string `"x"` under the hash model). -/
def c7Commit : Commit := Commit.mk 1 "remote commit" [exRoot] [("a.txt", ⟨"a.txt", "x", Diff.added⟩)]

/-- The remote repository for the fetch scenario: its `main` is at
`c7Commit` and its own blob store is correctly keyed by the hash `"x"`. -/
def c7Remote : RepoState :=
  { workdir := []
    stage := []
    blobs := [("x", ⟨"a.txt", "x", Diff.added⟩)]
    commits := [exRoot, c7Commit]
    branches := [("main", ⟨"main", c7Commit, true, none⟩)]
    cur := "main"
    output := [] }

/-- A local tip one commit past the root. -/
def c8Tip : Commit := Commit.mk 2 "local tip" [exRoot] []

/-- The local repository for the push scenario: current branch `main` at
`c8Tip`. -/
def c8Local : RepoState :=
  { workdir := []
    stage := []
    blobs := []
    commits := [exRoot, c8Tip]
    branches := [("main", ⟨"main", c8Tip, true, none⟩)]
    cur := "main"
    output := [] }

/-- The state reached by `fetch origin main`, `checkout_branch origin/main`,
`fetch origin main` against a fresh remote — the second fetch overwrites the
checked-out remote-tracking branch file with a non-current copy. -/
def c9Mid1 : RepoState := (fetchOp (initState []) "origin" (some (initState [])) "main").1

/-- See `c9Mid1`. -/
def c9Mid2 : RepoState := (checkout_branch c9Mid1 "origin/main").1

/-- See `c9Mid1`. -/
def c9Bad : RepoState := (fetchOp c9Mid2 "origin" (some (initState [])) "main").1

/-- The untracked-file scenario: the origin commit tracks `a`; the target
commit tracks `a` (changed) and `u`; the working tree holds both `a` and an
untracked `u`. -/
def w3Origin : Commit := Commit.mk 20 "origin a" [exRoot] [("a", ⟨"a", "x", Diff.added⟩)]

/-- See `w3Origin`. -/
def w3Target : Commit :=
  Commit.mk 21 "target a u" [exRoot]
    [("a", ⟨"a", "y", Diff.added⟩), ("u", ⟨"u", "w", Diff.added⟩)]

/-- See `w3Origin`. -/
def w3State : RepoState :=
  { workdir := [("a", "x"), ("u", "z")]
    stage := []
    blobs := [("x", ⟨"a", "x", Diff.added⟩), ("y", ⟨"a", "y", Diff.added⟩),
              ("w", ⟨"u", "w", Diff.added⟩)]
    commits := [exRoot, w3Origin, w3Target]
    branches := [("main", ⟨"main", w3Origin, true, none⟩),
                 ("tgt", ⟨"tgt", w3Target, false, none⟩)]
    cur := "main"
    output := [] }

/-- The conflict-format scenario: the split point tracks `f ↦ "a"` and
`g ↦ "e"`; the origin changed `f` to `"b"` and deleted `g`; the target
changed `f` to `"c"` and `g` to `"d"`. -/
def w5Lca : Commit :=
  Commit.mk 30 "split" [exRoot]
    [("f", ⟨"f", "a", Diff.added⟩), ("g", ⟨"g", "e", Diff.added⟩)]

/-- See `w5Lca`. -/
def w5Origin : Commit := Commit.mk 31 "origin side" [w5Lca] [("f", ⟨"f", "b", Diff.modified⟩)]

/-- See `w5Lca`. -/
def w5Target : Commit :=
  Commit.mk 32 "target side" [w5Lca]
    [("f", ⟨"f", "c", Diff.modified⟩), ("g", ⟨"g", "d", Diff.modified⟩)]

/-- See `w5Lca`. -/
def w5State : RepoState :=
  { workdir := [("f", "b")]
    stage := []
    blobs := [("a", ⟨"f", "a", Diff.added⟩), ("b", ⟨"f", "b", Diff.modified⟩),
              ("e", ⟨"g", "e", Diff.added⟩)]
    commits := [exRoot, w5Lca, w5Origin, w5Target]
    branches := [("main", ⟨"main", w5Origin, true, none⟩),
                 ("tgt", ⟨"tgt", w5Target, false, none⟩)]
    cur := "main"
    output := [] }

/-! Additional commits for the LCA counterexample: two merge commits that
agree at the root and at one later history position but disagree in
between. -/

/-- A child of the root, shared by both merges below. -/
def exA2 : Commit := Commit.mk 6 "A2" [exRoot] []

/-- A child of the root, merged only by `exM`. -/
def exB2 : Commit := Commit.mk 7 "B2" [exRoot] []

/-- A child of the root, merged only by `exM2`. -/
def exB3 : Commit := Commit.mk 8 "B3" [exRoot] []

/-- Merge of `exA2` and `exB2`. -/
def exM : Commit := Commit.mk 9 "M" [exA2, exB2] []

/-- Merge of `exA2` and `exB3`. -/
def exM2 : Commit := Commit.mk 13 "M2" [exA2, exB3] []

/-! Association-list lemmas. -/

theorem lookupA_setA_self {α β : Type} [DecidableEq α] (l : List (α × β)) (k : α) (v : β) :
    lookupA (setA l k v) k = some v := by
  induction l with
  | nil => simp [setA, lookupA]
  | cons hd tl ih =>
    rcases hd with ⟨k1, v1⟩
    by_cases h : k1 = k
    · simp [setA, h, lookupA]
    · simp [setA, h, lookupA, ih]

theorem lookupA_setA_ne {α β : Type} [DecidableEq α] (l : List (α × β)) (k k' : α) (v : β)
    (h : k' ≠ k) : lookupA (setA l k v) k' = lookupA l k' := by
  induction l with
  | nil => simp [setA, lookupA, Ne.symm h]
  | cons hd tl ih =>
    rcases hd with ⟨k1, v1⟩
    by_cases h1 : k1 = k
    · subst h1
      simp [setA, lookupA, Ne.symm h]
    · simp [setA, h1, lookupA, ih]

theorem lookupA_delA_ne {α β : Type} [DecidableEq α] (l : List (α × β)) (k k' : α)
    (h : k' ≠ k) : lookupA (delA l k) k' = lookupA l k' := by
  induction l with
  | nil => simp [delA, lookupA]
  | cons hd tl ih =>
    rcases hd with ⟨k1, v1⟩
    by_cases h1 : k1 = k
    · subst h1
      simp [delA, lookupA, Ne.symm h, ih]
    · simp [delA, h1, lookupA, ih]

theorem lookupA_delA_self {α β : Type} [DecidableEq α] (l : List (α × β)) (k : α) :
    lookupA (delA l k) k = none := by
  induction l with
  | nil => simp [delA, lookupA]
  | cons hd tl ih =>
    rcases hd with ⟨k1, v1⟩
    by_cases h1 : k1 = k
    · simp [delA, h1, ih]
    · simp [delA, h1, lookupA, ih]

theorem mem_of_lookupA {α β : Type} [DecidableEq α] {l : List (α × β)} {k : α} {v : β}
    (h : lookupA l k = some v) : (k, v) ∈ l := by
  induction l with
  | nil => simp [lookupA] at h
  | cons hd tl ih =>
    rcases hd with ⟨k1, v1⟩
    by_cases h1 : k1 = k
    · subst h1
      rw [lookupA, if_pos rfl] at h
      injection h with h2
      subst h2
      exact List.mem_cons_self _ _
    · simp only [lookupA, if_neg h1] at h
      exact List.mem_cons_of_mem _ (ih h)

theorem memA_of_mem {α β : Type} [DecidableEq α] {l : List (α × β)} {pr : α × β}
    (h : pr ∈ l) : memA l pr.1 = true := by
  induction l with
  | nil => simp at h
  | cons hd tl ih =>
    rcases hd with ⟨k1, v1⟩
    rcases List.mem_cons.mp h with h' | h'
    · subst h'
      simp [memA, lookupA]
    · by_cases h1 : k1 = pr.1
      · simp [memA, lookupA, h1]
      · simpa [memA, lookupA, h1] using ih h'

theorem not_mem_of_lookupA_none {α β : Type} [DecidableEq α] {l : List (α × β)} {k : α}
    (h : lookupA l k = none) : ∀ v, (k, v) ∉ l := by
  intro v hmem
  have := memA_of_mem hmem
  simp [memA, h] at this

theorem memA_false_not_key {α β : Type} [DecidableEq α] {l : List (α × β)} {k : α}
    (h : memA l k = false) : k ∉ l.map Prod.fst := by
  intro hmem
  rcases List.mem_map.mp hmem with ⟨pr, hpr, hfst⟩
  have := memA_of_mem hpr
  rw [hfst] at this
  simp [this] at h

theorem keys_setA_of_memA {α β : Type} [DecidableEq α] (l : List (α × β)) (k : α) (v : β)
    (h : memA l k = true) : (setA l k v).map Prod.fst = l.map Prod.fst := by
  induction l with
  | nil => simp [memA, lookupA] at h
  | cons hd tl ih =>
    rcases hd with ⟨k1, v1⟩
    by_cases h1 : k1 = k
    · simp [setA, h1]
    · simp only [memA, lookupA, if_neg h1] at h
      simp [setA, h1, ih h]

theorem keys_setA_of_not_memA {α β : Type} [DecidableEq α] (l : List (α × β)) (k : α) (v : β)
    (h : memA l k = false) : (setA l k v).map Prod.fst = l.map Prod.fst ++ [k] := by
  induction l with
  | nil => simp [setA]
  | cons hd tl ih =>
    rcases hd with ⟨k1, v1⟩
    by_cases h1 : k1 = k
    · simp [memA, lookupA, h1] at h
    · simp only [memA, lookupA, if_neg h1] at h
      simp [setA, h1, ih h]

theorem nodup_keys_setA {α β : Type} [DecidableEq α] (l : List (α × β)) (k : α) (v : β)
    (h : (l.map Prod.fst).Nodup) : ((setA l k v).map Prod.fst).Nodup := by
  cases hm : memA l k with
  | true => rw [keys_setA_of_memA l k v hm]; exact h
  | false =>
    rw [keys_setA_of_not_memA l k v hm]
    have := memA_false_not_key hm
    simp [List.nodup_append, h, this]

theorem mem_setA {α β : Type} [DecidableEq α] {l : List (α × β)} {k : α} {v : β} {pr : α × β}
    (h : pr ∈ setA l k v) : pr = (k, v) ∨ pr ∈ l := by
  induction l with
  | nil => simpa [setA] using h
  | cons hd tl ih =>
    rcases hd with ⟨k1, v1⟩
    by_cases h1 : k1 = k
    · simp only [setA, if_pos h1] at h
      rcases List.mem_cons.mp h with h' | h'
      · exact Or.inl h'
      · exact Or.inr (List.mem_cons_of_mem _ h')
    · simp only [setA, if_neg h1] at h
      rcases List.mem_cons.mp h with h' | h'
      · exact Or.inr (h' ▸ List.mem_cons_self _ _)
      · rcases ih h' with h'' | h''
        · exact Or.inl h''
        · exact Or.inr (List.mem_cons_of_mem _ h'')

theorem mem_delA {α β : Type} [DecidableEq α] {l : List (α × β)} {k : α} {pr : α × β}
    (h : pr ∈ delA l k) : pr ∈ l ∧ pr.1 ≠ k := by
  induction l with
  | nil => simp [delA] at h
  | cons hd tl ih =>
    rcases hd with ⟨k1, v1⟩
    by_cases h1 : k1 = k
    · simp only [delA, if_pos h1] at h
      exact ⟨List.mem_cons_of_mem _ (ih h).1, (ih h).2⟩
    · simp only [delA, if_neg h1] at h
      rcases List.mem_cons.mp h with h' | h'
      · subst h'
        exact ⟨List.mem_cons_self _ _, h1⟩
      · exact ⟨List.mem_cons_of_mem _ (ih h').1, (ih h').2⟩

theorem keys_delA_subset {α β : Type} [DecidableEq α] (l : List (α × β)) (k : α) :
    (delA l k).map Prod.fst ⊆ l.map Prod.fst := by
  intro x hx
  rcases List.mem_map.mp hx with ⟨pr, hpr, hfst⟩
  exact hfst ▸ List.mem_map_of_mem Prod.fst (mem_delA hpr).1

theorem nodup_keys_delA {α β : Type} [DecidableEq α] (l : List (α × β)) (k : α)
    (h : (l.map Prod.fst).Nodup) : ((delA l k).map Prod.fst).Nodup := by
  induction l with
  | nil => simp [delA]
  | cons hd tl ih =>
    rcases hd with ⟨k1, v1⟩
    simp only [List.map_cons, List.nodup_cons] at h
    by_cases h1 : k1 = k
    · simp only [delA, if_pos h1]
      exact ih h.2
    · simp only [delA, if_neg h1, List.map_cons, List.nodup_cons]
      exact ⟨fun hmem => h.1 (keys_delA_subset tl k hmem), ih h.2⟩

/-! Frame lemmas: which state components each operation can touch. -/

theorem wdRead_wdWrite_self (s : RepoState) (p c) : wdRead (wdWrite s p c) p = some c :=
  lookupA_setA_self _ _ _

theorem wdRead_wdWrite_ne (s : RepoState) (p c k) (h : k ≠ p) :
    wdRead (wdWrite s p c) k = wdRead s k :=
  lookupA_setA_ne _ _ _ _ h

theorem wdRead_wdDelete_ne (s : RepoState) (p k) (h : k ≠ p) :
    wdRead (wdDelete s p) k = wdRead s k :=
  lookupA_delA_ne _ _ _ h

theorem add_only_stage (s : RepoState) (p : String) :
    (add s p).1 = { s with stage := (add s p).1.stage } := by
  unfold add
  dsimp only
  repeat' split
  all_goals rfl

theorem add_branches (s : RepoState) (p : String) : (add s p).1.branches = s.branches := by
  rw [add_only_stage]

theorem add_cur (s : RepoState) (p : String) : (add s p).1.cur = s.cur := by
  rw [add_only_stage]

theorem add_commits (s : RepoState) (p : String) : (add s p).1.commits = s.commits := by
  rw [add_only_stage]

theorem add_workdir (s : RepoState) (p : String) : (add s p).1.workdir = s.workdir := by
  rw [add_only_stage]

theorem add_ok (s : RepoState) (p : String)
    (hwd : (wdRead s p).isSome) (hbr : (lookupA s.branches s.cur).isSome) :
    (add s p).2 = none := by
  unfold add
  cases h1 : lookupA s.stage p with
  | some staged => by_cases h2 : staged.diff = Diff.deleted <;> simp [h2]
  | none =>
    cases h2 : wdRead s p with
    | none => rw [h2] at hwd; simp at hwd
    | some contents =>
      cases h3 : lookupA s.branches s.cur with
      | none => rw [h3] at hbr; simp at hbr
      | some cb =>
        dsimp only
        repeat' split
        all_goals rfl

theorem removeOp_only (s : RepoState) (p : String) :
    (removeOp s p).1 = { s with stage := (removeOp s p).1.stage,
                                workdir := (removeOp s p).1.workdir } := by
  unfold removeOp
  dsimp only
  repeat' split
  all_goals rfl

theorem removeOp_branches (s p) : (removeOp s p).1.branches = s.branches := by
  rw [removeOp_only]

theorem removeOp_cur (s p) : (removeOp s p).1.cur = s.cur := by
  rw [removeOp_only]

theorem removeOp_commits (s p) : (removeOp s p).1.commits = s.commits := by
  rw [removeOp_only]

theorem removeOp_wd_ne (s : RepoState) (p k : String) (h : k ≠ p) :
    wdRead (removeOp s p).1 k = wdRead s k := by
  unfold removeOp
  dsimp only
  repeat' split
  all_goals first
  | rfl
  | exact lookupA_delA_ne _ _ _ h

theorem checkout_commit_only (s : RepoState) (cid : Commit) (p : String) :
    (checkout_commit s cid p).1 = { s with workdir := (checkout_commit s cid p).1.workdir } := by
  unfold checkout_commit
  repeat' split
  all_goals rfl

theorem checkout_commit_branches (s cid p) :
    (checkout_commit s cid p).1.branches = s.branches := by
  rw [checkout_commit_only]

theorem checkout_commit_cur (s cid p) : (checkout_commit s cid p).1.cur = s.cur := by
  rw [checkout_commit_only]

theorem checkout_commit_commits (s cid p) :
    (checkout_commit s cid p).1.commits = s.commits := by
  rw [checkout_commit_only]

theorem checkout_commit_stage (s cid p) : (checkout_commit s cid p).1.stage = s.stage := by
  rw [checkout_commit_only]

theorem checkout_commit_wd_ne (s : RepoState) (cid : Commit) (p k : String) (h : k ≠ p) :
    wdRead (checkout_commit s cid p).1 k = wdRead s k := by
  unfold checkout_commit
  repeat' split
  all_goals first
  | rfl
  | exact lookupA_setA_ne _ _ _ _ h

theorem checkout_commit_ok (s : RepoState) (cid : Commit) (p : String) (b : Blob)
    (hcid : cid ∈ s.commits) (hb : lookupA cid.fileBlobMap p = some b) :
    checkout_commit s cid p = (wdWrite s p b.contents, none) := by
  unfold checkout_commit
  rw [if_pos hcid, hb]

/-! Lemmas about `stepList`. -/

theorem stepList_append {α σ : Type} (f : α → σ → σ × Option PErr) (l1 l2 : List α)
    (st : σ) :
    stepList f (l1 ++ l2) st =
      match stepList f l1 st with
      | (st1, none) => stepList f l2 st1
      | (st1, some e) => (st1, some e) := by
  induction l1 generalizing st with
  | nil => simp [stepList]
  | cons a rest ih =>
    rcases hf : f a st with ⟨st', e⟩
    cases e with
    | none =>
      simp only [List.cons_append, stepList, hf]
      exact ih st'
    | some err => simp only [List.cons_append, stepList, hf]

theorem stepList_frame {α σ γ : Type} (f : α → σ → σ × Option PErr) (g : σ → γ)
    (entries : List α) (st : σ)
    (hstep : ∀ a ∈ entries, ∀ st1 : σ, g (f a st1).1 = g st1) :
    g (stepList f entries st).1 = g st := by
  induction entries generalizing st with
  | nil => rfl
  | cons a rest ih =>
    rcases hf : f a st with ⟨st', e⟩
    have hg : g st' = g st := by
      have := hstep a (List.mem_cons_self _ _) st
      rw [hf] at this
      exact this
    cases e with
    | none =>
      simp only [stepList, hf]
      rw [ih st' (fun a ha st1 => hstep a (List.mem_cons_of_mem _ ha) st1), hg]
    | some err => simpa [stepList, hf] using hg

/-! Breadth-first traversal lemmas for the amended history claim. -/

theorem bfsGo_sub : ∀ (fuel : Nat) (q v : List Commit), v ⊆ bfsGo fuel q v := by
  intro fuel
  induction fuel with
  | zero =>
    intro q v
    cases q <;> exact fun _ h => h
  | succ f ih =>
    intro q v
    cases q with
    | nil => exact fun _ h => h
    | cons c rest =>
      by_cases hc : c ∈ v
      · rw [bfsGo, if_pos hc]
        exact ih rest v
      · rw [bfsGo, if_neg hc]
        intro x hx
        exact ih _ _ (List.mem_append_left _ hx)

theorem bfsGo_nodup : ∀ (fuel : Nat) (q v : List Commit), v.Nodup → (bfsGo fuel q v).Nodup := by
  intro fuel
  induction fuel with
  | zero =>
    intro q v hv
    cases q <;> exact hv
  | succ f ih =>
    intro q v hv
    cases q with
    | nil => exact hv
    | cons c rest =>
      by_cases hc : c ∈ v
      · rw [bfsGo, if_pos hc]
        exact ih rest v hv
      · rw [bfsGo, if_neg hc]
        refine ih _ _ ?_
        simp [List.nodup_append, hv, hc]

theorem bfsGo_mem_queue : ∀ (fuel : Nat) (q v : List Commit), csizeL q ≤ fuel →
    ∀ x ∈ q, x ∈ bfsGo fuel q v := by
  intro fuel
  induction fuel with
  | zero =>
    intro q v h x hx
    cases q with
    | nil => simp at hx
    | cons c rest =>
      exfalso
      have := csize_pos c
      simp only [csizeL] at h
      omega
  | succ f ih =>
    intro q v h x hx
    cases q with
    | nil => simp at hx
    | cons c rest =>
      have hrest : csizeL rest ≤ f := by
        have := csize_pos c
        simp only [csizeL] at h
        omega
      by_cases hc : c ∈ v
      · rw [bfsGo, if_pos hc]
        rcases List.mem_cons.mp hx with hx' | hx'
        · exact bfsGo_sub f rest v (hx' ▸ hc)
        · exact ih rest v hrest x hx'
      · rw [bfsGo, if_neg hc]
        have hsz : csizeL (rest ++ c.parents) ≤ f := by
          cases c with
          | mk t m ps fb =>
            simp only [csizeL, csize_eq, csizeL_append, Commit.parents] at h ⊢
            omega
        rcases List.mem_cons.mp hx with hx' | hx'
        · exact bfsGo_sub f _ _ (by simp [hx'])
        · exact ih _ _ hsz x (List.mem_append_left _ hx')

theorem bfsGo_closed : ∀ (fuel : Nat) (q v : List Commit), csizeL q ≤ fuel →
    (∀ w ∈ v, ∀ p ∈ w.parents, p ∈ v ∨ p ∈ q) →
    ∀ w ∈ bfsGo fuel q v, ∀ p ∈ w.parents, p ∈ bfsGo fuel q v := by
  intro fuel
  induction fuel with
  | zero =>
    intro q v h hv w hw p hp
    cases q with
    | nil =>
      rcases hv w hw p hp with h' | h'
      · exact h'
      · simp at h'
    | cons c rest =>
      exfalso
      have := csize_pos c
      simp only [csizeL] at h
      omega
  | succ f ih =>
    intro q v h hv w hw p hp
    cases q with
    | nil =>
      rcases hv w hw p hp with h' | h'
      · exact h'
      · simp at h'
    | cons c rest =>
      have hrest : csizeL rest ≤ f := by
        have := csize_pos c
        simp only [csizeL] at h
        omega
      by_cases hc : c ∈ v
      · rw [bfsGo, if_pos hc] at hw ⊢
        refine ih rest v hrest ?_ w hw p hp
        intro w' hw' p' hp'
        rcases hv w' hw' p' hp' with h' | h'
        · exact Or.inl h'
        · rcases List.mem_cons.mp h' with h'' | h''
          · exact Or.inl (h'' ▸ hc)
          · exact Or.inr h''
      · rw [bfsGo, if_neg hc] at hw ⊢
        have hsz : csizeL (rest ++ c.parents) ≤ f := by
          cases c with
          | mk t m ps fb =>
            simp only [csizeL, csize_eq, csizeL_append, Commit.parents] at h ⊢
            omega
        refine ih _ _ hsz ?_ w hw p hp
        intro w' hw' p' hp'
        rcases List.mem_append.mp hw' with h' | h'
        · rcases hv w' h' p' hp' with h'' | h''
          · exact Or.inl (List.mem_append_left _ h'')
          · rcases List.mem_cons.mp h'' with h3 | h3
            · exact Or.inl (List.mem_append_right _ (by simp [h3]))
            · exact Or.inr (List.mem_append_left _ h3)
        · have : w' = c := by simpa using h'
          subst this
          exact Or.inr (List.mem_append_right _ hp')

theorem commit_history_self_mem (c : Commit) : c ∈ commit_history c := by
  rw [commit_history]
  refine bfsGo_mem_queue _ _ _ ?_ c (by simp)
  simp [csizeL]

theorem commit_history_closed (c : Commit) :
    ∀ w ∈ commit_history c, ∀ p ∈ w.parents, p ∈ commit_history c := by
  rw [commit_history]
  refine bfsGo_closed _ _ _ ?_ ?_
  · simp [csizeL]
  · intro w hw
    simp at hw

theorem getLast?_ne_none {α : Type} : ∀ (a : α) (l : List α), (a :: l).getLast? ≠ none := by
  intro a l
  induction l generalizing a with
  | nil => simp
  | cons b t ih =>
    rw [List.getLast?_cons_cons]
    exact ih b

theorem zip_filter_lastAgree : ∀ (xs ys : List Commit),
    (((xs.zip ys).filter (fun pr => pr.1 = pr.2)).getLast?).map Prod.fst =
      lastAgree xs ys
  | [], ys => by simp [lastAgree]
  | x :: xs, [] => by simp [lastAgree]
  | x :: xs, y :: ys => by
    have ih := zip_filter_lastAgree xs ys
    cases hrec : (xs.zip ys).filter (fun pr => pr.1 = pr.2) with
    | nil =>
      rw [hrec] at ih
      simp only [List.getLast?_nil, Option.map_none'] at ih
      by_cases hxy : x = y
      · subst hxy
        rw [List.zip_cons_cons, List.filter_cons, if_pos (by simp), hrec]
        simp [lastAgree, ← ih]
      · rw [List.zip_cons_cons, List.filter_cons, if_neg (by simp [hxy]), hrec]
        simp [lastAgree, ← ih, hxy]
    | cons hd tl =>
      rw [hrec] at ih
      obtain ⟨z, hz⟩ : ∃ z, (hd :: tl).getLast? = some z := by
        cases htl : (hd :: tl).getLast? with
        | none => exact absurd htl (getLast?_ne_none hd tl)
        | some z => exact ⟨z, rfl⟩
      rw [hz, Option.map_some'] at ih
      by_cases hxy : x = y
      · subst hxy
        rw [List.zip_cons_cons, List.filter_cons, if_pos (by simp), hrec,
          List.getLast?_cons_cons, hz, Option.map_some']
        simp [lastAgree, ← ih]
      · rw [List.zip_cons_cons, List.filter_cons, if_neg (by simp [hxy]), hrec, hz,
          Option.map_some']
        simp [lastAgree, ← ih, hxy]


/-- C2 (amended): `commit_history` visits each distinct commit exactly once
(no duplicates) and reaches every ancestor; and `latest_common_ancestor`
returns the element at the *last position at which the two reversed
histories agree element-for-element* (none when no position agrees) — not
the last element of the longest common rooted stem, and with no guarantee
that the root is last in a history. -/
theorem C2_history_lca_last_agree :
    (∀ c : Commit, (commit_history c).Nodup) ∧
    (∀ c x : Commit, ReachC c x → x ∈ commit_history c) ∧
    (∀ a b : Commit, latest_common_ancestor a b =
      lastAgree ((commit_history a).reverse) ((commit_history b).reverse)) := by
  refine ⟨?_, ?_, ?_⟩
  · intro c
    rw [commit_history]
    exact bfsGo_nodup _ _ _ (by simp)
  · intro c x h
    induction h with
    | refl => exact commit_history_self_mem c
    | step d p hcd hp ih => exact commit_history_closed c d ih p hp
  · intro a b
    unfold latest_common_ancestor
    exact zip_filter_lastAgree _ _

/-- C2 witness: the root is an iterated parent of the merge commit `exT` and
is indeed in its history, and the LCA characterization holds at the two
concrete merges `exM`, `exM2`. -/
theorem C2_witness :
    ReachC exT exRoot ∧ exRoot ∈ commit_history exT ∧
    latest_common_ancestor exM exM2 =
      lastAgree ((commit_history exM).reverse) ((commit_history exM2).reverse) := by
  have hreach : ReachC exT exRoot :=
    ReachC.step exT exB exRoot
      (ReachC.step exT exT exB (ReachC.refl exT) (by decide)) (by decide)
  exact ⟨hreach, C2_history_lca_last_agree.2.1 exT exRoot hreach,
    C2_history_lca_last_agree.2.2 exM exM2⟩

/-! Loop lemmas for the untracked-file guard claim. -/

theorem wdRead_add (s : RepoState) (p k : String) : wdRead (add s p).1 k = wdRead s k := by
  unfold wdRead
  rw [add_workdir]

theorem syncLoop_conflict (curMap : List (String × Blob)) :
    ∀ (entries : List (String × Blob)) (s : RepoState) (p : String),
    memA entries p = true → (wdRead s p).isSome → memA curMap p = false →
    ∃ s', stepList (syncWriteStep curMap) entries s =
        (s', some PErr.untrackedFileConflict) ∧ wdRead s' p = wdRead s p := by
  intro entries
  induction entries with
  | nil =>
    intro s p hmem
    simp [memA, lookupA] at hmem
  | cons hd tl ih =>
    intro s p hmem hwd hun
    rcases hd with ⟨k, b⟩
    by_cases hkp : k = p
    · subst hkp
      refine ⟨s, ?_, rfl⟩
      have hstep : syncWriteStep curMap (k, b) s = (s, some PErr.untrackedFileConflict) := by
        unfold syncWriteStep
        rw [if_pos ⟨hwd, by simp [hun]⟩]
      simp [stepList, hstep]
    · by_cases hguard : (wdRead s k).isSome ∧ ¬ memA curMap k = true
      · refine ⟨s, ?_, rfl⟩
        have hstep : syncWriteStep curMap (k, b) s = (s, some PErr.untrackedFileConflict) := by
          unfold syncWriteStep
          rw [if_pos hguard]
        simp [stepList, hstep]
      · have hstep : syncWriteStep curMap (k, b) s = (wdWrite s k b.contents, none) := by
          unfold syncWriteStep
          rw [if_neg hguard]
        have hmem' : memA tl p = true := by
          simpa [memA, lookupA, hkp] using hmem
        have hwd' : (wdRead (wdWrite s k b.contents) p).isSome := by
          rw [wdRead_wdWrite_ne s k b.contents p (fun h => hkp h.symm)]
          exact hwd
        obtain ⟨s', hs', hp'⟩ := ih (wdWrite s k b.contents) p hmem' hwd' hun
        refine ⟨s', ?_, ?_⟩
        · simp [stepList, hstep, hs']
        · rw [hp', wdRead_wdWrite_ne s k b.contents p (fun h => hkp h.symm)]

theorem mergeStep1_frame (ocMap lcaMap : List (String × Blob)) (tc : Commit)
    (pr : String × Blob) (st : RepoState × Bool) :
    (mergeStep1 ocMap lcaMap tc pr st).1.1.branches = st.1.branches ∧
    (mergeStep1 ocMap lcaMap tc pr st).1.1.cur = st.1.cur ∧
    (mergeStep1 ocMap lcaMap tc pr st).1.1.commits = st.1.commits ∧
    ∀ k, k ≠ pr.1 → wdRead (mergeStep1 ocMap lcaMap tc pr st).1.1 k = wdRead st.1 k := by
  obtain ⟨s, confl⟩ := st
  unfold mergeStep1
  dsimp only
  split
  · exact ⟨rfl, rfl, rfl, fun k hk => rfl⟩
  · split
    · split
      · split
        · refine ⟨by rw [add_branches]; rfl, by rw [add_cur]; rfl,
            by rw [add_commits]; rfl, ?_⟩
          intro k hk
          rw [wdRead_add, wdRead_wdWrite_ne _ _ _ _ hk]
        · rcases hco : checkout_commit s tc pr.1 with ⟨s1, e1⟩
          cases e1 with
          | none =>
            simp only [hco]
            have hs1 : s1 = (checkout_commit s tc pr.1).1 := by rw [hco]
            refine ⟨?_, ?_, ?_, ?_⟩
            · rw [add_branches, hs1, checkout_commit_branches]
            · rw [add_cur, hs1, checkout_commit_cur]
            · rw [add_commits, hs1, checkout_commit_commits]
            · intro k hk
              rw [wdRead_add, hs1, checkout_commit_wd_ne _ _ _ _ hk]
          | some e =>
            simp only [hco]
            have hs1 : s1 = (checkout_commit s tc pr.1).1 := by rw [hco]
            refine ⟨by rw [hs1, checkout_commit_branches],
              by rw [hs1, checkout_commit_cur],
              by rw [hs1, checkout_commit_commits], ?_⟩
            intro k hk
            rw [hs1, checkout_commit_wd_ne _ _ _ _ hk]
      · rcases hco : checkout_commit s tc pr.1 with ⟨s1, e1⟩
        cases e1 with
        | none =>
          simp only [hco]
          have hs1 : s1 = (checkout_commit s tc pr.1).1 := by rw [hco]
          refine ⟨?_, ?_, ?_, ?_⟩
          · rw [add_branches, hs1, checkout_commit_branches]
          · rw [add_cur, hs1, checkout_commit_cur]
          · rw [add_commits, hs1, checkout_commit_commits]
          · intro k hk
            rw [wdRead_add, hs1, checkout_commit_wd_ne _ _ _ _ hk]
        | some e =>
          simp only [hco]
          have hs1 : s1 = (checkout_commit s tc pr.1).1 := by rw [hco]
          refine ⟨by rw [hs1, checkout_commit_branches],
            by rw [hs1, checkout_commit_cur],
            by rw [hs1, checkout_commit_commits], ?_⟩
          intro k hk
          rw [hs1, checkout_commit_wd_ne _ _ _ _ hk]
    · split
      · refine ⟨by rw [add_branches]; rfl, by rw [add_cur]; rfl,
          by rw [add_commits]; rfl, ?_⟩
        intro k hk
        rw [wdRead_add, wdRead_wdWrite_ne _ _ _ _ hk]
      · split
        · split
          · refine ⟨by rw [add_branches]; rfl, by rw [add_cur]; rfl,
              by rw [add_commits]; rfl, ?_⟩
            intro k hk
            rw [wdRead_add, wdRead_wdWrite_ne _ _ _ _ hk]
          · exact ⟨rfl, rfl, rfl, fun k hk => rfl⟩
        · exact ⟨rfl, rfl, rfl, fun k hk => rfl⟩

theorem mergeStep1_cases (ocMap lcaMap : List (String × Blob)) (tc : Commit)
    (pr : String × Blob) (st : RepoState × Bool)
    (hbr : (lookupA st.1.branches st.1.cur).isSome)
    (htc : tc ∈ st.1.commits)
    (hkey : memA tc.fileBlobMap pr.1 = true) :
    mergeStep1 ocMap lcaMap tc pr st = (st, some PErr.untrackedFileConflict) ∨
    (mergeStep1 ocMap lcaMap tc pr st).2 = none := by
  obtain ⟨s, confl⟩ := st
  obtain ⟨b, hb⟩ : ∃ b, lookupA tc.fileBlobMap pr.1 = some b := by
    cases h : lookupA tc.fileBlobMap pr.1 with
    | none => simp [memA, h] at hkey
    | some b => exact ⟨b, rfl⟩
  unfold mergeStep1
  dsimp only
  by_cases hguard : (wdRead s pr.1).isSome ∧ ¬ memA ocMap pr.1 = true
  · rw [if_pos hguard]
    exact Or.inl rfl
  · rw [if_neg hguard]
    right
    cases hlca : lookupA lcaMap pr.1 with
    | none =>
      dsimp only
      cases hoc : lookupA ocMap pr.1 with
      | some ob =>
        dsimp only
        split
        · exact add_ok _ _ (by simp [wdRead_wdWrite_self]) hbr
        · rw [checkout_commit_ok s tc pr.1 b htc hb]
          dsimp only
          exact add_ok _ _ (by simp [wdRead_wdWrite_self]) hbr
      | none =>
        dsimp only
        rw [checkout_commit_ok s tc pr.1 b htc hb]
        dsimp only
        exact add_ok _ _ (by simp [wdRead_wdWrite_self]) hbr
    | some lb =>
      dsimp only
      split
      · exact add_ok _ _ (by simp [wdRead_wdWrite_self]) hbr
      · cases hoc : lookupA ocMap pr.1 with
        | some ob =>
          dsimp only
          split
          · exact add_ok _ _ (by simp [wdRead_wdWrite_self]) hbr
          · rfl
        | none => rfl

theorem mergeLoop1_guard (ocMap lcaMap : List (String × Blob)) (tc : Commit) :
    ∀ (entries : List (String × Blob)) (s : RepoState) (confl : Bool) (p : String),
    memA entries p = true → (wdRead s p).isSome → memA ocMap p = false →
    (lookupA s.branches s.cur).isSome → tc ∈ s.commits →
    (∀ pr ∈ entries, memA tc.fileBlobMap pr.1 = true) →
    ∃ st', stepList (mergeStep1 ocMap lcaMap tc) entries (s, confl) =
      (st', some PErr.untrackedFileConflict) ∧ wdRead st'.1 p = wdRead s p := by
  intro entries
  induction entries with
  | nil =>
    intro s confl p hmem
    simp [memA, lookupA] at hmem
  | cons hd tl ih =>
    intro s confl p hmem hwd hun hbr htc hkeys
    rcases hd with ⟨k, b⟩
    by_cases hkp : k = p
    · subst hkp
      refine ⟨(s, confl), ?_, rfl⟩
      have hstep : mergeStep1 ocMap lcaMap tc (k, b) (s, confl) =
          ((s, confl), some PErr.untrackedFileConflict) := by
        unfold mergeStep1
        dsimp only
        rw [if_pos ⟨hwd, by simp [hun]⟩]
      simp [stepList, hstep]
    · rcases mergeStep1_cases ocMap lcaMap tc (k, b) (s, confl) hbr htc
        (hkeys (k, b) (List.mem_cons_self _ _)) with hc | hc
      · exact ⟨(s, confl), by simp [stepList, hc], rfl⟩
      · rcases hres : mergeStep1 ocMap lcaMap tc (k, b) (s, confl) with ⟨⟨s1, c1⟩, e⟩
        have he : e = none := by rw [hres] at hc; exact hc
        subst he
        have hframe := mergeStep1_frame ocMap lcaMap tc (k, b) (s, confl)
        rw [hres] at hframe
        obtain ⟨hfb, hfc, hfm, hfwd⟩ := hframe
        have hwdp : wdRead s1 p = wdRead s p := hfwd p (fun h => hkp h.symm)
        obtain ⟨st', hst', hp'⟩ := ih s1 c1 p
          (by simpa [memA, lookupA, hkp] using hmem)
          (by rw [hwdp]; exact hwd) hun
          (by rw [hfb, hfc]; exact hbr)
          (by rw [hfm]; exact htc)
          (fun pr hpr => hkeys pr (List.mem_cons_of_mem _ hpr))
        refine ⟨st', ?_, by rw [hp', hwdp]⟩
        simp [stepList, hres, hst']

/-- C3: a working file that exists, is untracked by the current commit, and
is tracked by the target snapshot makes `checkout_branch`, `reset`, and a
non-fast-forward `merge` fail with the untracked-file-conflict error, and
the working content of that file is unchanged in the resulting state. -/
theorem C3_untracked_guard (s : RepoState) (p bn : String) (cid l : Commit)
    (cb tb : Branch) (now : Int)
    (hcb : lookupA s.branches s.cur = some cb)
    (hwd : (wdRead s p).isSome)
    (hun : memA cb.commit.fileBlobMap p = false)
    (htb : lookupA s.branches bn = some tb)
    (hneq : cb.name ≠ bn)
    (htgt : memA tb.commit.fileBlobMap p = true)
    (hcid : cid ∈ s.commits)
    (hcidp : memA cid.fileBlobMap p = true)
    (hstage : s.stage = [])
    (hlca : latest_common_ancestor cb.commit tb.commit = some l)
    (hl1 : l ≠ tb.commit)
    (hl2 : l ≠ cb.commit)
    (htcin : tb.commit ∈ s.commits) :
    ((checkout_branch s bn).2 = some PErr.untrackedFileConflict ∧
      wdRead (checkout_branch s bn).1 p = wdRead s p) ∧
    ((resetOp s cid).2 = some PErr.untrackedFileConflict ∧
      wdRead (resetOp s cid).1 p = wdRead s p) ∧
    ((mergeOp s bn now).2 = some PErr.untrackedFileConflict ∧
      wdRead (mergeOp s bn now).1 p = wdRead s p) := by
  have hmemA : memA s.branches bn = true := by simp [memA, htb]
  refine ⟨?_, ?_, ?_⟩
  · obtain ⟨s', hs', hp'⟩ :=
      syncLoop_conflict cb.commit.fileBlobMap tb.commit.fileBlobMap s p htgt hwd hun
    unfold checkout_branch
    rw [hcb, htb]
    dsimp only
    rw [if_neg hneq]
    simp [hs', hp']
  · obtain ⟨s', hs', hp'⟩ :=
      syncLoop_conflict cb.commit.fileBlobMap cid.fileBlobMap s p hcidp hwd hun
    unfold resetOp
    rw [if_pos hcid, hcb]
    dsimp only
    simp [hs', hp']
  · obtain ⟨st', hst', hp'⟩ :=
      mergeLoop1_guard cb.commit.fileBlobMap l.fileBlobMap tb.commit
        tb.commit.fileBlobMap s false p htgt hwd hun (by simp [hcb]) htcin
        (fun pr hpr => memA_of_mem hpr)
    unfold mergeOp
    rw [if_neg (by simp [hstage]), if_neg (by simp [hmemA]), hcb]
    dsimp only
    rw [if_neg hneq, htb]
    dsimp only
    rw [hlca]
    dsimp only
    rw [if_neg hl1, if_neg hl2]
    rcases hst2 : st' with ⟨s2, c2⟩
    rw [hst2] at hst' hp'
    simp [hst', hp']

/-- C3 witness: the hypotheses hold at the concrete repository `w3State`
with the untracked working file `u`, target branch `tgt`, and reset target
`w3Target`. -/
theorem C3_witness :
    ((checkout_branch w3State "tgt").2 = some PErr.untrackedFileConflict ∧
      wdRead (checkout_branch w3State "tgt").1 "u" = wdRead w3State "u") ∧
    ((resetOp w3State w3Target).2 = some PErr.untrackedFileConflict ∧
      wdRead (resetOp w3State w3Target).1 "u" = wdRead w3State "u") ∧
    ((mergeOp w3State "tgt" 99).2 = some PErr.untrackedFileConflict ∧
      wdRead (mergeOp w3State "tgt" 99).1 "u" = wdRead w3State "u") :=
  C3_untracked_guard w3State "u" "tgt" w3Target exRoot
    ⟨"main", w3Origin, true, none⟩ ⟨"tgt", w3Target, false, none⟩ 99
    (by decide) (by decide) (by decide) (by decide) (by decide) (by decide)
    (by decide) (by decide) (by decide) (by decide) (by decide) (by decide)
    (by decide)

/-! Stage-folding lemmas for the commit claim. -/

theorem memA_setA_self {α β : Type} [DecidableEq α] (l : List (α × β)) (k : α) (v : β) :
    memA (setA l k v) k = true := by
  simp [memA, lookupA_setA_self]

theorem memA_setA_ne {α β : Type} [DecidableEq α] (l : List (α × β)) (k k' : α) (v : β)
    (h : k' ≠ k) : memA (setA l k v) k' = memA l k' := by
  simp [memA, lookupA_setA_ne l k k' v h]

theorem memA_setA_mono {α β : Type} [DecidableEq α] (l : List (α × β)) (k k' : α) (v : β)
    (h : memA l k' = true) : memA (setA l k v) k' = true := by
  by_cases hk : k' = k
  · subst hk
    exact memA_setA_self l k' v
  · rw [memA_setA_ne l k k' v hk]
    exact h

/-- A key removal leaves membership at other keys unchanged. -/
theorem memA_delA_ne {α β : Type} [DecidableEq α] (l : List (α × β)) (k k' : α)
    (h : k' ≠ k) : memA (delA l k) k' = memA l k' := by
  simp [memA, lookupA_delA_ne l k k' h]

/-- The stage fold touches only the blob store and the stage: branches, the
symlink, the commit store, the working directory and the output are
preserved, whether or not the fold raises. -/
theorem foldStage_frame : ∀ (entries : List (String × Blob)) (s : RepoState)
    (bd : List (String × Blob)),
    (foldStage entries (s, bd)).1.1.branches = s.branches ∧
    (foldStage entries (s, bd)).1.1.cur = s.cur ∧
    (foldStage entries (s, bd)).1.1.commits = s.commits ∧
    (foldStage entries (s, bd)).1.1.workdir = s.workdir ∧
    (foldStage entries (s, bd)).1.1.output = s.output := by
  intro entries
  induction entries with
  | nil => intro s bd; exact ⟨rfl, rfl, rfl, rfl, rfl⟩
  | cons hd tl ih =>
    intro s bd
    rcases hd with ⟨k, b⟩
    unfold foldStage
    dsimp only
    by_cases hw : ¬ memA s.blobs b.hash = true ∨ b.diff ≠ Diff.deleted
    · rw [if_pos hw]
      by_cases hdel : b.diff ≠ Diff.deleted
      · rw [if_pos hdel]
        exact ih _ _
      · rw [if_neg hdel]
        by_cases hmem : memA bd b.name = true
        · rw [if_pos hmem]
          exact ih _ _
        · rw [if_neg hmem]
          exact ⟨rfl, rfl, rfl, rfl, rfl⟩
    · rw [if_neg hw]
      by_cases hdel : b.diff ≠ Diff.deleted
      · rw [if_pos hdel]
        exact ih _ _
      · rw [if_neg hdel]
        by_cases hmem : memA bd b.name = true
        · rw [if_pos hmem]
          exact ih _ _
        · rw [if_neg hmem]
          exact ⟨rfl, rfl, rfl, rfl, rfl⟩

/-- When every staged `Deleted` key is present in the starting map (staged
keys distinct and matching their blobs' names), the fold completes. -/
theorem foldStage_succeeds : ∀ (entries : List (String × Blob)) (s : RepoState)
    (bd : List (String × Blob)),
    (∀ pr ∈ entries, (pr.2).name = pr.1) → ((entries.map Prod.fst).Nodup) →
    (∀ pr ∈ entries, (pr.2).diff = Diff.deleted → memA bd pr.1 = true) →
    (foldStage entries (s, bd)).2 = none := by
  intro entries
  induction entries with
  | nil => intro s bd _ _ _; rfl
  | cons hd tl ih =>
    intro s bd hwf hnd hdel
    rcases hd with ⟨k, b⟩
    have hbk : b.name = k := hwf (k, b) (List.mem_cons_self _ _)
    simp only [List.map_cons, List.nodup_cons] at hnd
    have hrest : ∀ (bd' : List (String × Blob)),
        (∀ k', memA bd' k' = memA bd k' ∨ k' = k) →
        ∀ (s' : RepoState), (foldStage tl (s', bd')).2 = none := by
      intro bd' hbd' s'
      refine ih s' bd' (fun pr hpr => hwf pr (List.mem_cons_of_mem _ hpr)) hnd.2 ?_
      intro pr hpr hprdel
      have hne : pr.1 ≠ k := fun he => hnd.1 (he ▸ List.mem_map_of_mem Prod.fst hpr)
      rcases hbd' pr.1 with he | he
      · rw [he]
        exact hdel pr (List.mem_cons_of_mem _ hpr) hprdel
      · exact absurd he hne
    unfold foldStage
    dsimp only
    by_cases hd2 : b.diff ≠ Diff.deleted
    · rw [if_pos hd2]
      refine hrest _ ?_ _
      intro k'
      by_cases hk : k' = b.name
      · exact Or.inr (hk.trans hbk)
      · exact Or.inl (memA_setA_ne _ _ _ _ hk)
    · rw [if_neg hd2]
      have hmem : memA bd b.name = true := by
        rw [hbk]
        exact hdel (k, b) (List.mem_cons_self _ _) (by simpa using hd2)
      rw [if_pos hmem]
      refine hrest _ ?_ _
      intro k'
      by_cases hk : k' = b.name
      · exact Or.inr (hk.trans hbk)
      · exact Or.inl (memA_delA_ne _ _ _ hk)

/-- When some staged `Deleted` key is absent from the starting map (staged
keys distinct and matching their blobs' names), the fold raises the
`KeyError`. -/
theorem foldStage_fails : ∀ (entries : List (String × Blob)) (s : RepoState)
    (bd : List (String × Blob)),
    (∀ pr ∈ entries, (pr.2).name = pr.1) → ((entries.map Prod.fst).Nodup) →
    (∃ pr ∈ entries, (pr.2).diff = Diff.deleted ∧ memA bd pr.1 = false) →
    (foldStage entries (s, bd)).2 = some PErr.ioError := by
  intro entries
  induction entries with
  | nil =>
    intro s bd _ _ hex
    rcases hex with ⟨pr, hpr, _⟩
    cases hpr
  | cons hd tl ih =>
    intro s bd hwf hnd hex
    rcases hd with ⟨k, b⟩
    have hbk : b.name = k := hwf (k, b) (List.mem_cons_self _ _)
    simp only [List.map_cons, List.nodup_cons] at hnd
    have hrest : ∀ (bd' : List (String × Blob)),
        (∀ k', k' ≠ k → memA bd' k' = memA bd k') →
        (∃ pr ∈ tl, (pr.2).diff = Diff.deleted ∧ memA bd pr.1 = false) →
        ∀ (s' : RepoState), (foldStage tl (s', bd')).2 = some PErr.ioError := by
      intro bd' hbd' hex' s'
      refine ih s' bd' (fun pr hpr => hwf pr (List.mem_cons_of_mem _ hpr)) hnd.2 ?_
      rcases hex' with ⟨pr, hpr, hprdel, hprmem⟩
      have hne : pr.1 ≠ k := fun he => hnd.1 (he ▸ List.mem_map_of_mem Prod.fst hpr)
      exact ⟨pr, hpr, hprdel, by rw [hbd' pr.1 hne]; exact hprmem⟩
    unfold foldStage
    dsimp only
    by_cases hd2 : b.diff ≠ Diff.deleted
    · rw [if_pos hd2]
      rcases hex with ⟨pr, hpr, hprdel, hprmem⟩
      rcases List.mem_cons.mp hpr with hpr' | hpr'
      · subst hpr'
        exact absurd hprdel (by simpa using hd2)
      · exact hrest _ (fun k' hk => memA_setA_ne _ _ _ _ (hbk ▸ hk))
          ⟨pr, hpr', hprdel, hprmem⟩ _
    · rw [if_neg hd2]
      by_cases hmem : memA bd b.name = true
      · rw [if_pos hmem]
        rcases hex with ⟨pr, hpr, hprdel, hprmem⟩
        rcases List.mem_cons.mp hpr with hpr' | hpr'
        · subst hpr'
          rw [hbk] at hmem
          rw [hmem] at hprmem
          exact Bool.noConfusion hprmem
        · exact hrest _ (fun k' hk => memA_delA_ne _ _ _ (hbk ▸ hk))
            ⟨pr, hpr', hprdel, hprmem⟩ _
      · rw [if_neg hmem]

/-- On a completed fold over a nonempty snapshot every staged file has been
unlinked: the final stage is empty. -/
theorem foldStage_stage_empty : ∀ (entries : List (String × Blob)) (s : RepoState)
    (bd : List (String × Blob)), entries ≠ [] →
    (foldStage entries (s, bd)).2 = none →
    (foldStage entries (s, bd)).1.1.stage = [] := by
  intro entries
  induction entries with
  | nil =>
    intro s bd h
    exact absurd rfl h
  | cons hd tl ih =>
    intro s bd _ hsucc
    rcases hd with ⟨k, b⟩
    unfold foldStage at hsucc ⊢
    dsimp only at hsucc ⊢
    by_cases hd2 : b.diff ≠ Diff.deleted
    · rw [if_pos hd2] at hsucc ⊢
      cases tl with
      | nil => rfl
      | cons h2 t2 => exact ih _ _ (by simp) hsucc
    · rw [if_neg hd2] at hsucc ⊢
      by_cases hmem : memA bd b.name = true
      · rw [if_pos hmem] at hsucc ⊢
        cases tl with
        | nil => rfl
        | cons h2 t2 => exact ih _ _ (by simp) hsucc
      · rw [if_neg hmem] at hsucc
        exact absurd hsucc (by simp)

/-- On a completed fold the final map is the starting map with `Deleted`
staged keys removed and all other staged keys set (staged keys distinct and
matching their blobs' names). -/
theorem foldStage_map_lookup : ∀ (entries : List (String × Blob)) (s : RepoState)
    (bd : List (String × Blob)) (path : String),
    (∀ pr ∈ entries, (pr.2).name = pr.1) → ((entries.map Prod.fst).Nodup) →
    (foldStage entries (s, bd)).2 = none →
    lookupA (foldStage entries (s, bd)).1.2 path =
      (match lookupA entries path with
       | some b => if b.diff ≠ Diff.deleted then some b else none
       | none => lookupA bd path) := by
  intro entries
  induction entries with
  | nil =>
    intro s bd path _ _ _
    simp [foldStage, lookupA]
  | cons hd tl ih =>
    intro s bd path hwf hnd hsucc
    rcases hd with ⟨k, b⟩
    have hbk : b.name = k := hwf (k, b) (List.mem_cons_self _ _)
    simp only [List.map_cons, List.nodup_cons] at hnd
    have hwf' := fun pr hpr => hwf pr (List.mem_cons_of_mem (k, b) hpr)
    unfold foldStage at hsucc ⊢
    dsimp only at hsucc ⊢
    by_cases hd2 : b.diff ≠ Diff.deleted
    · rw [if_pos hd2] at hsucc ⊢
      rw [ih _ (setA bd b.name b) path hwf' hnd.2 hsucc]
      by_cases hkp : k = path
      · subst hkp
        have htl : lookupA tl k = none := by
          cases hq : lookupA tl k with
          | none => rfl
          | some v => exact absurd (List.mem_map_of_mem Prod.fst (mem_of_lookupA hq)) hnd.1
        have hhead : lookupA ((k, b) :: tl) k = some b := by simp [lookupA]
        rw [htl, hhead]
        dsimp only
        rw [if_pos hd2, hbk, lookupA_setA_self]
      · have hlk : lookupA ((k, b) :: tl) path = lookupA tl path := by
          simp [lookupA, hkp]
        rw [hlk]
        have hne : b.name ≠ path := by rw [hbk]; exact hkp
        cases hpath : lookupA tl path with
        | some v => rfl
        | none =>
          dsimp only
          exact lookupA_setA_ne bd b.name path b (fun hq => hne hq.symm)
    · rw [if_neg hd2] at hsucc ⊢
      by_cases hmem : memA bd b.name = true
      · rw [if_pos hmem] at hsucc ⊢
        rw [ih _ (delA bd b.name) path hwf' hnd.2 hsucc]
        by_cases hkp : k = path
        · subst hkp
          have htl : lookupA tl k = none := by
            cases hq : lookupA tl k with
            | none => rfl
            | some v => exact absurd (List.mem_map_of_mem Prod.fst (mem_of_lookupA hq)) hnd.1
          have hhead : lookupA ((k, b) :: tl) k = some b := by simp [lookupA]
          rw [htl, hhead]
          dsimp only
          rw [if_neg hd2, hbk, lookupA_delA_self]
        · have hlk : lookupA ((k, b) :: tl) path = lookupA tl path := by
            simp [lookupA, hkp]
          rw [hlk]
          have hne : b.name ≠ path := by rw [hbk]; exact hkp
          cases hpath : lookupA tl path with
          | some v => rfl
          | none =>
            dsimp only
            exact lookupA_delA_ne bd b.name path (fun hq => hne hq.symm)
      · rw [if_neg hmem] at hsucc
        dsimp only at hsucc
        exact Option.noConfusion hsucc

/-- Blob-store membership is monotone along the fold, raising or not. -/
theorem foldStage_blobs_mono : ∀ (entries : List (String × Blob)) (s : RepoState)
    (bd : List (String × Blob)) (h : String),
    memA s.blobs h = true → memA (foldStage entries (s, bd)).1.1.blobs h = true := by
  intro entries
  induction entries with
  | nil => intro s bd h hm; exact hm
  | cons hd tl ih =>
    intro s bd h hm
    rcases hd with ⟨k, b⟩
    unfold foldStage
    dsimp only
    by_cases hw : ¬ memA s.blobs b.hash = true ∨ b.diff ≠ Diff.deleted
    · rw [if_pos hw]
      by_cases hd2 : b.diff ≠ Diff.deleted
      · rw [if_pos hd2]
        exact ih _ _ h (memA_setA_mono _ _ _ _ hm)
      · rw [if_neg hd2]
        by_cases hmem : memA bd b.name = true
        · rw [if_pos hmem]
          exact ih _ _ h (memA_setA_mono _ _ _ _ hm)
        · rw [if_neg hmem]
          exact memA_setA_mono _ _ _ _ hm
    · rw [if_neg hw]
      by_cases hd2 : b.diff ≠ Diff.deleted
      · rw [if_pos hd2]
        exact ih _ _ h hm
      · rw [if_neg hd2]
        by_cases hmem : memA bd b.name = true
        · rw [if_pos hmem]
          exact ih _ _ h hm
        · rw [if_neg hmem]
          exact hm

/-- On a completed fold, every staged blob that is not yet stored **or**
whose diff is not `Deleted` has been persisted. -/
theorem foldStage_blobs_written : ∀ (entries : List (String × Blob)) (s : RepoState)
    (bd : List (String × Blob)),
    (foldStage entries (s, bd)).2 = none →
    ∀ pr ∈ entries, (memA s.blobs (pr.2).hash = false ∨ (pr.2).diff ≠ Diff.deleted) →
    memA (foldStage entries (s, bd)).1.1.blobs (pr.2).hash = true := by
  intro entries
  induction entries with
  | nil =>
    intro s bd _ pr hpr
    simp at hpr
  | cons hd tl ih =>
    intro s bd hsucc pr hpr hcond
    rcases hd with ⟨k, b⟩
    unfold foldStage at hsucc ⊢
    dsimp only at hsucc ⊢
    rcases List.mem_cons.mp hpr with hpr' | hpr'
    · subst hpr'
      have hw : ¬ memA s.blobs b.hash = true ∨ b.diff ≠ Diff.deleted := by
        rcases hcond with hc | hc
        · exact Or.inl (by simp [hc])
        · exact Or.inr hc
      rw [if_pos hw] at hsucc ⊢
      by_cases hd2 : b.diff ≠ Diff.deleted
      · rw [if_pos hd2]
        exact foldStage_blobs_mono tl _ _ _ (memA_setA_self _ _ _)
      · rw [if_neg hd2] at hsucc ⊢
        by_cases hmem : memA bd b.name = true
        · rw [if_pos hmem]
          exact foldStage_blobs_mono tl _ _ _ (memA_setA_self _ _ _)
        · rw [if_neg hmem] at hsucc
          dsimp only at hsucc
          exact Option.noConfusion hsucc
    · by_cases hw : ¬ memA s.blobs b.hash = true ∨ b.diff ≠ Diff.deleted
      · rw [if_pos hw] at hsucc ⊢
        by_cases hd2 : b.diff ≠ Diff.deleted
        · rw [if_pos hd2] at hsucc ⊢
          by_cases hmem2 : memA (blobWrite s b.hash b).blobs (pr.2).hash = true
          · exact foldStage_blobs_mono tl _ _ _ hmem2
          · refine ih _ _ hsucc pr hpr' (Or.inl ?_)
            simpa using hmem2
        · rw [if_neg hd2] at hsucc ⊢
          by_cases hmem : memA bd b.name = true
          · rw [if_pos hmem] at hsucc ⊢
            by_cases hmem2 : memA (blobWrite s b.hash b).blobs (pr.2).hash = true
            · exact foldStage_blobs_mono tl _ _ _ hmem2
            · refine ih _ _ hsucc pr hpr' (Or.inl ?_)
              simpa using hmem2
          · rw [if_neg hmem] at hsucc
            dsimp only at hsucc
            exact Option.noConfusion hsucc
      · rw [if_neg hw] at hsucc ⊢
        by_cases hd2 : b.diff ≠ Diff.deleted
        · rw [if_pos hd2] at hsucc ⊢
          refine ih _ _ hsucc pr hpr' ?_
          rcases hcond with hc | hc
          · exact Or.inl hc
          · exact Or.inr hc
        · rw [if_neg hd2] at hsucc ⊢
          by_cases hmem : memA bd b.name = true
          · rw [if_pos hmem] at hsucc ⊢
            refine ih _ _ hsucc pr hpr' ?_
            rcases hcond with hc | hc
            · exact Or.inl hc
            · exact Or.inr hc
          · rw [if_neg hmem] at hsucc
            dsimp only at hsucc
            exact Option.noConfusion hsucc

/-- Every blob-store key after the fold was already stored or is some
staged blob's hash, raising or not. -/
theorem foldStage_blobs_from : ∀ (entries : List (String × Blob)) (s : RepoState)
    (bd : List (String × Blob)) (h : String),
    memA (foldStage entries (s, bd)).1.1.blobs h = true →
    memA s.blobs h = true ∨ ∃ pr ∈ entries, (pr.2).hash = h := by
  intro entries
  induction entries with
  | nil => intro s bd h hm; exact Or.inl hm
  | cons hd tl ih =>
    intro s bd h hm
    rcases hd with ⟨k, b⟩
    unfold foldStage at hm
    dsimp only at hm
    have hfromW : memA (blobWrite s b.hash b).blobs h = true →
        memA s.blobs h = true ∨ ∃ pr ∈ (k, b) :: tl, (pr.2).hash = h := by
      intro hm'
      by_cases hbh : h = b.hash
      · exact Or.inr ⟨(k, b), List.mem_cons_self _ _, hbh.symm⟩
      · have hm2 : memA (setA s.blobs b.hash b) h = true := hm'
        rw [memA_setA_ne s.blobs b.hash h b hbh] at hm2
        exact Or.inl hm2
    have hlift : (memA s.blobs h = true ∨ ∃ pr ∈ tl, (pr.2).hash = h) →
        memA s.blobs h = true ∨ ∃ pr ∈ (k, b) :: tl, (pr.2).hash = h := by
      rintro (hq | ⟨pr, hpr, hh⟩)
      · exact Or.inl hq
      · exact Or.inr ⟨pr, List.mem_cons_of_mem _ hpr, hh⟩
    have hliftW : (memA (blobWrite s b.hash b).blobs h = true ∨
        ∃ pr ∈ tl, (pr.2).hash = h) →
        memA s.blobs h = true ∨ ∃ pr ∈ (k, b) :: tl, (pr.2).hash = h := by
      rintro (hq | ⟨pr, hpr, hh⟩)
      · exact hfromW hq
      · exact Or.inr ⟨pr, List.mem_cons_of_mem _ hpr, hh⟩
    by_cases hw : ¬ memA s.blobs b.hash = true ∨ b.diff ≠ Diff.deleted
    · rw [if_pos hw] at hm
      by_cases hd2 : b.diff ≠ Diff.deleted
      · rw [if_pos hd2] at hm
        have hq := ih _ _ h hm
        exact hliftW hq
      · rw [if_neg hd2] at hm
        by_cases hmem : memA bd b.name = true
        · rw [if_pos hmem] at hm
          have hq := ih _ _ h hm
          exact hliftW hq
        · rw [if_neg hmem] at hm
          exact hfromW hm
    · rw [if_neg hw] at hm
      by_cases hd2 : b.diff ≠ Diff.deleted
      · rw [if_pos hd2] at hm
        have hq := ih _ _ h hm
        exact hlift hq
      · rw [if_neg hd2] at hm
        by_cases hmem : memA bd b.name = true
        · rw [if_pos hmem] at hm
          have hq := ih _ _ h hm
          exact hlift hq
        · rw [if_neg hmem] at hm
          exact Or.inl hm

theorem write_branch_commits (s : RepoState) (b : Branch) :
    (write_branch s b).commits = s.commits := by
  unfold write_branch
  split <;> rfl

theorem write_branch_blobs (s : RepoState) (b : Branch) :
    (write_branch s b).blobs = s.blobs := by
  unfold write_branch
  split <;> rfl

theorem write_branch_stage (s : RepoState) (b : Branch) :
    (write_branch s b).stage = s.stage := by
  unfold write_branch
  split <;> rfl

theorem write_branch_workdir (s : RepoState) (b : Branch) :
    (write_branch s b).workdir = s.workdir := by
  unfold write_branch
  split <;> rfl

theorem write_branch_branches (s : RepoState) (b : Branch) :
    (write_branch s b).branches = setA s.branches b.name b := by
  unfold write_branch
  split <;> rfl

theorem commitWrite_mem_self (s : RepoState) (c : Commit) :
    c ∈ (commitWrite s c).commits := by
  unfold commitWrite
  split
  · assumption
  · simp

theorem commitWrite_blobs (s : RepoState) (c : Commit) :
    (commitWrite s c).blobs = s.blobs := by
  unfold commitWrite
  split <;> rfl

theorem commitWrite_stage (s : RepoState) (c : Commit) :
    (commitWrite s c).stage = s.stage := by
  unfold commitWrite
  split <;> rfl

theorem commitWrite_branches (s : RepoState) (c : Commit) :
    (commitWrite s c).branches = s.branches := by
  unfold commitWrite
  split <;> rfl

theorem commitWrite_cur (s : RepoState) (c : Commit) :
    (commitWrite s c).cur = s.cur := by
  unfold commitWrite
  split <;> rfl

/-- Renaming the commit of a branch record leaves its display name
unchanged. -/
theorem Branch.name_commit_update (b : Branch) (c : Commit) :
    ({ b with commit := c } : Branch).name = b.name := by
  cases b with
  | mk ln co ic re => cases re <;> rfl

/-- C4 (amended): `commit` fails `EmptyStage` on an empty stage and, when
the stage is nonempty, `EmptyMessage` on an empty message, leaving the
state unchanged; otherwise it processes the staged entries in order,
persisting a staged blob *when it is not already stored or its diff is not
`Deleted`* (so a `Deleted` blob not yet stored is persisted as well — the
source tests `not stored or not deleted`); when every staged `Deleted`
entry's path is tracked by the parent commit's map it creates a commit
whose parents are exactly `[current tip]`, whose map drops `Deleted` staged
keys and sets all other staged keys, adds no blob-store key that is not
some staged blob's hash, stores the commit, moves the current branch to it,
and empties the stage; but when some staged `Deleted` entry's path is
untracked, `frozendict.delete` raises an unhandled `KeyError` and the
commit aborts with no commit created and the branch unmoved (the blob
writes and stage unlinks already performed are retained). -/
theorem C4_commit_spec (s : RepoState) (message : String) (now : Int) (cb : Branch)
    (hcb : lookupA s.branches s.cur = some cb)
    (hwf : ∀ pr ∈ s.stage, (pr.2).name = pr.1)
    (hnd : (s.stage.map Prod.fst).Nodup) :
    (s.stage = [] → commitOp s message now = (s, some PErr.emptyStage)) ∧
    (s.stage ≠ [] → message = "" → commitOp s message now = (s, some PErr.emptyMessage)) ∧
    (s.stage ≠ [] → message ≠ "" →
      (∀ pr ∈ s.stage, (pr.2).diff = Diff.deleted →
        memA cb.commit.fileBlobMap pr.1 = true) →
      (commitOp s message now).2 = none ∧
      ∃ c : Commit,
        c.parents = [cb.commit] ∧ c.message = message ∧ c.timestamp = now ∧
        (∀ path blob, lookupA s.stage path = some blob → blob.diff ≠ Diff.deleted →
          lookupA c.fileBlobMap path = some blob) ∧
        (∀ path blob, lookupA s.stage path = some blob → blob.diff = Diff.deleted →
          lookupA c.fileBlobMap path = none) ∧
        (∀ path, lookupA s.stage path = none →
          lookupA c.fileBlobMap path = lookupA cb.commit.fileBlobMap path) ∧
        c ∈ (commitOp s message now).1.commits ∧
        lookupA (commitOp s message now).1.branches cb.name =
          some { cb with commit := c } ∧
        (cb.is_current = true → (commitOp s message now).1.cur = cb.name) ∧
        (commitOp s message now).1.stage = [] ∧
        (∀ pr ∈ s.stage,
          (memA s.blobs (pr.2).hash = false ∨ (pr.2).diff ≠ Diff.deleted) →
          memA (commitOp s message now).1.blobs (pr.2).hash = true) ∧
        (∀ h, memA (commitOp s message now).1.blobs h = true →
          memA s.blobs h = true ∨ ∃ pr ∈ s.stage, (pr.2).hash = h)) ∧
    (s.stage ≠ [] → message ≠ "" →
      (∃ pr ∈ s.stage, (pr.2).diff = Diff.deleted ∧
        memA cb.commit.fileBlobMap pr.1 = false) →
      (commitOp s message now).2 = some PErr.ioError ∧
      (commitOp s message now).1.commits = s.commits ∧
      (commitOp s message now).1.branches = s.branches ∧
      (commitOp s message now).1.cur = s.cur) := by
  refine ⟨?_, ?_, ?_, ?_⟩
  · intro h
    unfold commitOp
    rw [if_pos h]
  · intro h1 h2
    unfold commitOp
    rw [if_neg h1, if_pos h2]
  · intro h1 h2 hdel
    unfold commitOp
    rw [if_neg h1, if_neg h2, hcb]
    dsimp only
    have hsucc := foldStage_succeeds s.stage s cb.commit.fileBlobMap hwf hnd hdel
    have hframe := foldStage_frame s.stage s cb.commit.fileBlobMap
    have hstage := foldStage_stage_empty s.stage s cb.commit.fileBlobMap h1 hsucc
    have hmap := fun path =>
      foldStage_map_lookup s.stage s cb.commit.fileBlobMap path hwf hnd hsucc
    have hwritten := foldStage_blobs_written s.stage s cb.commit.fileBlobMap hsucc
    have hfrom := foldStage_blobs_from s.stage s cb.commit.fileBlobMap
    rcases hfold : foldStage s.stage (s, cb.commit.fileBlobMap) with ⟨⟨s1, bd⟩, e⟩
    rw [hfold] at hsucc hframe hstage hwritten hfrom
    rw [hfold] at hmap
    dsimp only at hsucc
    subst hsucc
    dsimp only
    refine ⟨rfl, Commit.mk now message [cb.commit] bd,
      rfl, rfl, rfl, ?_, ?_, ?_, ?_, ?_, ?_, ?_, ?_, ?_⟩
    · intro path blob hl hnotdel
      show lookupA bd path = some blob
      have hm := hmap path
      dsimp only at hm
      rw [hm, hl]
      dsimp only
      rw [if_pos hnotdel]
    · intro path blob hl hdel2
      show lookupA bd path = none
      have hm := hmap path
      dsimp only at hm
      rw [hm, hl]
      dsimp only
      rw [if_neg (by simp [hdel2])]
    · intro path hl
      show lookupA bd path = _
      have hm := hmap path
      dsimp only at hm
      rw [hm, hl]
    · show _ ∈ (write_branch _ _).commits
      rw [write_branch_commits]
      exact commitWrite_mem_self _ _
    · show lookupA (write_branch _ _).branches cb.name = _
      rw [write_branch_branches, Branch.name_commit_update, lookupA_setA_self]
    · intro hcur
      show (write_branch _ _).cur = cb.name
      unfold write_branch
      rw [if_pos (by exact hcur)]
      exact Branch.name_commit_update cb _
    · show (write_branch _ _).stage = []
      rw [write_branch_stage, commitWrite_stage]
      exact hstage
    · intro pr hpr hcond
      show memA (write_branch _ _).blobs (pr.2).hash = true
      rw [write_branch_blobs, commitWrite_blobs]
      exact hwritten pr hpr hcond
    · intro h hm
      rw [write_branch_blobs, commitWrite_blobs] at hm
      exact hfrom h hm
  · intro h1 h2 hex
    unfold commitOp
    rw [if_neg h1, if_neg h2, hcb]
    dsimp only
    have hfail := foldStage_fails s.stage s cb.commit.fileBlobMap hwf hnd hex
    have hframe := foldStage_frame s.stage s cb.commit.fileBlobMap
    rcases hfold : foldStage s.stage (s, cb.commit.fileBlobMap) with ⟨⟨s1, bd⟩, e⟩
    rw [hfold] at hfail hframe
    dsimp only at hfail
    subst hfail
    dsimp only
    exact ⟨rfl, hframe.2.2.1, hframe.1, hframe.2.1⟩

/-- C4 witness: the hypotheses of `C4_commit_spec` hold at the concrete
repository `c4Witness` (one staged `Added` entry `q`), and the
characterization follows at that input. -/
theorem C4_witness :
    lookupA c4Witness.branches c4Witness.cur = some ⟨"main", exRoot, true, none⟩ ∧
    (∀ pr ∈ c4Witness.stage, (pr.2).name = pr.1) ∧
    (c4Witness.stage.map Prod.fst).Nodup ∧
    ((c4Witness.stage = [] → commitOp c4Witness "msg" 3 = (c4Witness, some PErr.emptyStage)) ∧
     (c4Witness.stage ≠ [] → "msg" = "" →
       commitOp c4Witness "msg" 3 = (c4Witness, some PErr.emptyMessage)) ∧
     (c4Witness.stage ≠ [] → "msg" ≠ "" →
       (∀ pr ∈ c4Witness.stage, (pr.2).diff = Diff.deleted →
         memA (⟨"main", exRoot, true, none⟩ : Branch).commit.fileBlobMap pr.1 = true) →
       (commitOp c4Witness "msg" 3).2 = none ∧
       ∃ c : Commit,
         c.parents = [(⟨"main", exRoot, true, none⟩ : Branch).commit] ∧
         c.message = "msg" ∧ c.timestamp = 3 ∧
         (∀ path blob, lookupA c4Witness.stage path = some blob →
           blob.diff ≠ Diff.deleted → lookupA c.fileBlobMap path = some blob) ∧
         (∀ path blob, lookupA c4Witness.stage path = some blob →
           blob.diff = Diff.deleted → lookupA c.fileBlobMap path = none) ∧
         (∀ path, lookupA c4Witness.stage path = none →
           lookupA c.fileBlobMap path =
             lookupA (⟨"main", exRoot, true, none⟩ : Branch).commit.fileBlobMap path) ∧
         c ∈ (commitOp c4Witness "msg" 3).1.commits ∧
         lookupA (commitOp c4Witness "msg" 3).1.branches
           (⟨"main", exRoot, true, none⟩ : Branch).name =
           some { (⟨"main", exRoot, true, none⟩ : Branch) with commit := c } ∧
         ((⟨"main", exRoot, true, none⟩ : Branch).is_current = true →
           (commitOp c4Witness "msg" 3).1.cur = (⟨"main", exRoot, true, none⟩ : Branch).name) ∧
         (commitOp c4Witness "msg" 3).1.stage = [] ∧
         (∀ pr ∈ c4Witness.stage,
           (memA c4Witness.blobs (pr.2).hash = false ∨ (pr.2).diff ≠ Diff.deleted) →
           memA (commitOp c4Witness "msg" 3).1.blobs (pr.2).hash = true) ∧
         (∀ h, memA (commitOp c4Witness "msg" 3).1.blobs h = true →
           memA c4Witness.blobs h = true ∨ ∃ pr ∈ c4Witness.stage, (pr.2).hash = h)) ∧
     (c4Witness.stage ≠ [] → "msg" ≠ "" →
       (∃ pr ∈ c4Witness.stage, (pr.2).diff = Diff.deleted ∧
         memA (⟨"main", exRoot, true, none⟩ : Branch).commit.fileBlobMap pr.1 = false) →
       (commitOp c4Witness "msg" 3).2 = some PErr.ioError ∧
       (commitOp c4Witness "msg" 3).1.commits = c4Witness.commits ∧
       (commitOp c4Witness "msg" 3).1.branches = c4Witness.branches ∧
       (commitOp c4Witness "msg" 3).1.cur = c4Witness.cur)) :=
  ⟨by decide, by decide, by decide,
    C4_commit_spec c4Witness "msg" 3 ⟨"main", exRoot, true, none⟩
      (by decide) (by decide) (by decide)⟩

/-- C6 (amended): `remove` fails `NothingToRemove` exactly when the path is
neither staged nor tracked by the current commit; otherwise it deletes any
staged entry and then, if the working file is present, stages a `Deleted`
blob holding the working file's contents and deletes the working file — but
when the working file is absent the operation fails (an unhandled
`FileNotFoundError` from `read_text`), the staged-entry deletion having
already happened, rather than tolerating the missing file. -/
theorem C6_remove_spec (s : RepoState) (p : String) (cb : Branch)
    (hcb : lookupA s.branches s.cur = some cb) :
    (memA s.stage p = false → memA cb.commit.fileBlobMap p = false →
      removeOp s p = (s, some PErr.nothingToRemove)) ∧
    (memA s.stage p = true ∨ memA cb.commit.fileBlobMap p = true →
      (∀ contents, wdRead s p = some contents →
        removeOp s p =
          (wdDelete { s with stage := setA (delA s.stage p) p ⟨p, contents, Diff.deleted⟩ } p,
            none)) ∧
      (wdRead s p = none →
        removeOp s p = ({ s with stage := delA s.stage p }, some PErr.ioError))) := by
  constructor
  · intro h1 h2
    unfold removeOp
    rw [hcb]
    dsimp only
    rw [if_pos ⟨by simp [h1], by simp [h2]⟩]
  · intro hor
    have hguard : ¬ (¬ memA s.stage p = true ∧ ¬ memA cb.commit.fileBlobMap p = true) := by
      rcases hor with h | h
      · exact fun hc => hc.1 h
      · exact fun hc => hc.2 h
    constructor
    · intro contents hwd
      unfold removeOp
      rw [hcb]
      dsimp only
      rw [if_neg hguard]
      have : wdRead { s with stage := delA s.stage p } p = some contents := hwd
      rw [this]
    · intro hwd
      unfold removeOp
      rw [hcb]
      dsimp only
      rw [if_neg hguard]
      have : wdRead { s with stage := delA s.stage p } p = none := hwd
      rw [this]

/-- C6 witness: at `c6Present` the path `p` is tracked and the working file
is present, so `remove` succeeds, staging a `Deleted` blob with the working
contents; the hypotheses of `C6_remove_spec` are discharged concretely. -/
theorem C6_witness :
    ((memA c6Present.stage "p" = false → memA c6Commit.fileBlobMap "p" = false →
      removeOp c6Present "p" = (c6Present, some PErr.nothingToRemove)) ∧
    (memA c6Present.stage "p" = true ∨ memA c6Commit.fileBlobMap "p" = true →
      (∀ contents, wdRead c6Present "p" = some contents →
        removeOp c6Present "p" =
          (wdDelete { c6Present with
              stage := setA (delA c6Present.stage "p") "p" ⟨"p", contents, Diff.deleted⟩ } "p",
            none)) ∧
      (wdRead c6Present "p" = none →
        removeOp c6Present "p" =
          ({ c6Present with stage := delA c6Present.stage "p" }, some PErr.ioError)))) ∧
    memA c6Commit.fileBlobMap "p" = true ∧
    wdRead c6Present "p" = some "a" := by
  refine ⟨?_, by decide, by decide⟩
  have h := C6_remove_spec c6Present "p" ⟨"main", c6Commit, true, none⟩ (by decide)
  exact h

/-- The write half of the sync loop never touches the commit store. -/
theorem syncWriteStep_commits (curMap : List (String × Blob)) (pr : String × Blob)
    (s : RepoState) : (syncWriteStep curMap pr s).1.commits = s.commits := by
  unfold syncWriteStep
  split <;> rfl

/-- The delete half of the sync loop never touches the commit store. -/
theorem syncDeleteStep_commits (tgtMap : List (String × Blob)) (pr : String × Blob)
    (s : RepoState) : (syncDeleteStep tgtMap pr s).1.commits = s.commits := by
  unfold syncDeleteStep
  repeat' split
  all_goals rfl

/-- `reset` never changes the commit store, whether it succeeds or raises. -/
theorem resetOp_commits (s : RepoState) (cid : Commit) :
    (resetOp s cid).1.commits = s.commits := by
  unfold resetOp
  by_cases h1 : cid ∈ s.commits
  · rw [if_pos h1]
    cases h2 : lookupA s.branches s.cur with
    | none => rfl
    | some cb =>
      dsimp only
      have hw := stepList_frame (syncWriteStep cb.commit.fileBlobMap) RepoState.commits
        cid.fileBlobMap s (fun a _ st1 => syncWriteStep_commits _ a st1)
      rcases hsw : stepList (syncWriteStep cb.commit.fileBlobMap) cid.fileBlobMap s
        with ⟨s1, e1⟩
      rw [hsw] at hw
      cases e1 with
      | some e => exact hw
      | none =>
        dsimp only
        have hd := stepList_frame (syncDeleteStep cid.fileBlobMap) RepoState.commits
          cb.commit.fileBlobMap s1 (fun a _ st1 => syncDeleteStep_commits _ a st1)
        rcases hsd : stepList (syncDeleteStep cid.fileBlobMap) cb.commit.fileBlobMap s1
          with ⟨s2, e2⟩
        rw [hsd] at hd
        cases e2 with
        | some e => exact hd.trans hw
        | none =>
          dsimp only
          cases h3 : lookupA s2.branches s2.cur with
          | none => exact hd.trans hw
          | some cb2 =>
            dsimp only
            rw [write_branch_commits]
            exact hd.trans hw
  · rw [if_neg h1]

/-- The commit store only grows under `commitWrite`. -/
theorem commitWrite_mono (s : RepoState) (c x : Commit) (h : x ∈ s.commits) :
    x ∈ (commitWrite s c).commits := by
  unfold commitWrite
  split
  · exact h
  · exact List.mem_append_left _ h

/-- The commit store only grows under a `commitWrite` fold. -/
theorem foldl_commitWrite_mono : ∀ (l : List Commit) (rs : RepoState) (x : Commit),
    x ∈ rs.commits → x ∈ (l.foldl commitWrite rs).commits := by
  intro l
  induction l with
  | nil => intro rs x h; exact h
  | cons c cs ih =>
    intro rs x h
    exact ih (commitWrite rs c) x (commitWrite_mono rs c x h)

/-- Folding `commitWrite` over a list puts every list element in the store. -/
theorem foldl_commitWrite_mem : ∀ (l : List Commit) (rs : RepoState),
    ∀ x ∈ l, x ∈ (l.foldl commitWrite rs).commits := by
  intro l
  induction l with
  | nil => intro rs x hx; simp at hx
  | cons c cs ih =>
    intro rs x hx
    rcases List.mem_cons.mp hx with hx' | hx'
    · subst hx'
      exact foldl_commitWrite_mono cs (commitWrite rs x) x (commitWrite_mem_self rs x)
    · exact ih (commitWrite rs c) x hx'

/-- C8 (amended): when the remote lacks the named branch, `push` writes the
local *current* branch (current flag cleared) to the remote under that
branch's own name — not under the pushed name; otherwise it reads the
locally recorded remote-tracking branch file (failing with an unhandled
error when it was never fetched), requires that recorded tip to occur in
the local history — else `NonFastForward` with the remote unchanged — and
on success copies the commits after the recorded tip into the remote store
and `reset`s the remote to the local tip.  The local repository is never
modified. -/
theorem C8_push_spec (s : RepoState) (rn bn : String) (rs : RepoState) (cb : Branch)
    (hcb : lookupA s.branches s.cur = some cb) :
    (memA rs.branches bn = false →
      pushOp s rn (some rs) bn =
        (some (write_branch rs { cb with is_current := false }), none)) ∧
    (memA rs.branches bn = true →
      (lookupA s.branches (rn ++ "/" ++ bn) = none →
        pushOp s rn (some rs) bn = (some rs, some PErr.ioError)) ∧
      (∀ trk, lookupA s.branches (rn ++ "/" ++ bn) = some trk →
        (trk.commit ∉ (commit_history cb.commit).reverse →
          pushOp s rn (some rs) bn = (some rs, some PErr.nonFastForward)) ∧
        (trk.commit ∈ (commit_history cb.commit).reverse →
          ∃ rs1,
            rs1 = (((commit_history cb.commit).reverse).drop
              (((commit_history cb.commit).reverse).findIdx (· = trk.commit) + 1)).foldl
                commitWrite rs ∧
            pushOp s rn (some rs) bn = (some (resetOp rs1 cb.commit).1, (resetOp rs1 cb.commit).2) ∧
            (∀ x ∈ ((commit_history cb.commit).reverse).drop
                (((commit_history cb.commit).reverse).findIdx (· = trk.commit) + 1),
              x ∈ (resetOp rs1 cb.commit).1.commits)))) := by
  constructor
  · intro h1
    unfold pushOp
    dsimp only
    rw [if_pos (by simp [h1]), hcb]
  · intro h1
    constructor
    · intro h2
      unfold pushOp
      dsimp only
      rw [if_neg (by simp [h1]), h2]
    · intro trk htrk
      constructor
      · intro hnotmem
        unfold pushOp
        dsimp only
        rw [if_neg (by simp [h1]), htrk]
        dsimp only
        rw [hcb]
        dsimp only
        rw [if_neg hnotmem]
      · intro hmem
        refine ⟨_, rfl, ?_, ?_⟩
        · unfold pushOp
          dsimp only
          rw [if_neg (by simp [h1]), htrk]
          dsimp only
          rw [hcb]
          dsimp only
          rw [if_pos hmem]
        · intro x hx
          rw [resetOp_commits]
          exact foldl_commitWrite_mem _ rs x hx

/-- C8 witness: pushing `feature` to a fresh remote that lacks it, from the
local repository `c8Local` whose current branch is `main`. -/
theorem C8_witness :
    ((memA (initState []).branches "feature" = false →
      pushOp c8Local "origin" (some (initState [])) "feature" =
        (some (write_branch (initState [])
          { (⟨"main", c8Tip, true, none⟩ : Branch) with is_current := false }), none)) ∧
     (memA (initState []).branches "feature" = true →
      (lookupA c8Local.branches ("origin" ++ "/" ++ "feature") = none →
        pushOp c8Local "origin" (some (initState [])) "feature" =
          (some (initState []), some PErr.ioError)) ∧
      (∀ trk, lookupA c8Local.branches ("origin" ++ "/" ++ "feature") = some trk →
        (trk.commit ∉ (commit_history (⟨"main", c8Tip, true, none⟩ : Branch).commit).reverse →
          pushOp c8Local "origin" (some (initState [])) "feature" =
            (some (initState []), some PErr.nonFastForward)) ∧
        (trk.commit ∈ (commit_history (⟨"main", c8Tip, true, none⟩ : Branch).commit).reverse →
          ∃ rs1,
            rs1 = (((commit_history (⟨"main", c8Tip, true, none⟩ : Branch).commit).reverse).drop
              (((commit_history (⟨"main", c8Tip, true, none⟩ : Branch).commit).reverse).findIdx
                (· = trk.commit) + 1)).foldl commitWrite (initState []) ∧
            pushOp c8Local "origin" (some (initState [])) "feature" =
              (some (resetOp rs1 (⟨"main", c8Tip, true, none⟩ : Branch).commit).1,
                (resetOp rs1 (⟨"main", c8Tip, true, none⟩ : Branch).commit).2) ∧
            (∀ x ∈ ((commit_history (⟨"main", c8Tip, true, none⟩ : Branch).commit).reverse).drop
                (((commit_history (⟨"main", c8Tip, true, none⟩ : Branch).commit).reverse).findIdx
                  (· = trk.commit) + 1),
              x ∈ (resetOp rs1 (⟨"main", c8Tip, true, none⟩ : Branch).commit).1.commits))))) ∧
    memA (initState []).branches "feature" = false :=
  ⟨C8_push_spec c8Local "origin" "feature" (initState [])
    ⟨"main", c8Tip, true, none⟩ (by decide), by decide⟩

/-! Registry lemmas for the one-current-branch invariant. -/

theorem lookupA_of_mem_nodup {α β : Type} [DecidableEq α] {l : List (α × β)}
    {pr : α × β} (hnd : (l.map Prod.fst).Nodup) (h : pr ∈ l) :
    lookupA l pr.1 = some pr.2 := by
  induction l with
  | nil => simp at h
  | cons hd tl ih =>
    rcases hd with ⟨k1, v1⟩
    simp only [List.map_cons, List.nodup_cons] at hnd
    rcases List.mem_cons.mp h with h' | h'
    · subst h'
      simp [lookupA]
    · have hk : k1 ≠ pr.1 := by
        intro he
        exact hnd.1 (he ▸ List.mem_map_of_mem Prod.fst h')
      simp only [lookupA, if_neg hk]
      exact ih hnd.2 h'

theorem regOK_of_same (s s' : RepoState) (hb : s'.branches = s.branches)
    (hc : s'.cur = s.cur) (h : RegOK s) : RegOK s' := by
  rw [RegOK, hb, hc]
  exact h

theorem regOK_cur_branch (s : RepoState) (cb : Branch) (h : RegOK s)
    (hcb : lookupA s.branches s.cur = some cb) :
    cb.name = s.cur ∧ cb.is_current = true := by
  obtain ⟨hnd, hnames, ⟨b, hb, hbc⟩, huniq⟩ := h
  have he : cb = b := by
    rw [hcb] at hb
    injection hb
  constructor
  · exact hnames (s.cur, cb) (mem_of_lookupA hcb)
  · rw [he]
    exact hbc

theorem write_branch_cur_regOK (s : RepoState) (b : Branch) (h : RegOK s)
    (hname : b.name = s.cur) (hcur : b.is_current = true) :
    RegOK (write_branch s b) := by
  obtain ⟨hnd, hnames, ⟨b0, hb0, hb0c⟩, huniq⟩ := h
  have hwb : (write_branch s b).branches = setA s.branches b.name b :=
    write_branch_branches s b
  have hwc : (write_branch s b).cur = b.name := by
    unfold write_branch
    rw [if_pos hcur]
  refine ⟨?_, ?_, ?_, ?_⟩
  · rw [hwb]
    exact nodup_keys_setA _ _ _ hnd
  · intro pr hpr
    rw [hwb] at hpr
    rcases mem_setA hpr with h' | h'
    · rw [h']
    · exact hnames pr h'
  · refine ⟨b, ?_, hcur⟩
    rw [hwb, hwc]
    exact lookupA_setA_self _ _ _
  · intro pr hpr hprc
    rw [hwb] at hpr
    rw [hwc]
    rcases mem_setA hpr with h' | h'
    · rw [h']
    · rw [hname]
      exact huniq pr h' hprc

theorem setA_false_regOK (s : RepoState) (k : String) (b : Branch) (h : RegOK s)
    (hk : k ≠ s.cur) (hname : b.name = k) (hfalse : b.is_current = false) :
    RegOK { s with branches := setA s.branches k b } := by
  obtain ⟨hnd, hnames, ⟨b0, hb0, hb0c⟩, huniq⟩ := h
  refine ⟨?_, ?_, ?_, ?_⟩
  · exact nodup_keys_setA _ _ _ hnd
  · intro pr hpr
    rcases mem_setA hpr with h' | h'
    · rw [h']
      exact hname
    · exact hnames pr h'
  · refine ⟨b0, ?_, hb0c⟩
    show lookupA (setA s.branches k b) s.cur = some b0
    rw [lookupA_setA_ne _ _ _ _ (fun he => hk he.symm)]
    exact hb0
  · intro pr hpr hprc
    rcases mem_setA hpr with h' | h'
    · rw [h'] at hprc
      rw [hfalse] at hprc
      exact absurd hprc (by simp)
    · exact huniq pr h' hprc

theorem delA_regOK (s : RepoState) (n : String) (h : RegOK s) (hn : n ≠ s.cur) :
    RegOK { s with branches := delA s.branches n } := by
  obtain ⟨hnd, hnames, ⟨b0, hb0, hb0c⟩, huniq⟩ := h
  refine ⟨?_, ?_, ?_, ?_⟩
  · exact nodup_keys_delA _ _ hnd
  · intro pr hpr
    exact hnames pr (mem_delA hpr).1
  · refine ⟨b0, ?_, hb0c⟩
    show lookupA (delA s.branches n) s.cur = some b0
    rw [lookupA_delA_ne _ _ _ (fun he => hn he.symm)]
    exact hb0
  · intro pr hpr hprc
    exact huniq pr (mem_delA hpr).1 hprc

theorem mem_setA_nodup {α β : Type} [DecidableEq α] {l : List (α × β)} {k : α} {v : β}
    {pr : α × β} (hnd : (l.map Prod.fst).Nodup) (h : pr ∈ setA l k v) :
    pr = (k, v) ∨ (pr ∈ l ∧ pr.1 ≠ k) := by
  induction l with
  | nil =>
    simp only [setA, List.mem_singleton] at h
    exact Or.inl h
  | cons hd tl ih =>
    rcases hd with ⟨k1, v1⟩
    simp only [List.map_cons, List.nodup_cons] at hnd
    by_cases h1 : k1 = k
    · subst h1
      simp only [setA, if_pos rfl] at h
      rcases List.mem_cons.mp h with h' | h'
      · exact Or.inl h'
      · refine Or.inr ⟨List.mem_cons_of_mem _ h', ?_⟩
        intro he
        exact hnd.1 (he ▸ List.mem_map_of_mem Prod.fst h')
    · simp only [setA, if_neg h1] at h
      rcases List.mem_cons.mp h with h' | h'
      · exact Or.inr ⟨h' ▸ List.mem_cons_self _ _, by rw [h']; exact h1⟩
      · rcases ih hnd.2 h' with h'' | h''
        · exact Or.inl h''
        · exact Or.inr ⟨List.mem_cons_of_mem _ h''.1, h''.2⟩

theorem checkout_pair_regOK (s : RepoState) (cb tb : Branch) (n : String) (h : RegOK s)
    (hcb : lookupA s.branches s.cur = some cb)
    (htb : lookupA s.branches n = some tb)
    (_hn : n ≠ s.cur) :
    RegOK (write_branch (write_branch s { cb with is_current := false })
      { tb with is_current := true }) := by
  have hcbn : cb.name = s.cur := (regOK_cur_branch s cb h hcb).1
  have htbn : tb.name = n := h.2.1 (n, tb) (mem_of_lookupA htb)
  obtain ⟨hnd, hnames, ⟨b0, hb0, hb0c⟩, huniq⟩ := h
  have hfn : ({ cb with is_current := false } : Branch).name = cb.name := by
    cases cb with
    | mk ln co ic re => cases re <;> rfl
  have htn : ({ tb with is_current := true } : Branch).name = tb.name := by
    cases tb with
    | mk ln co ic re => cases re <;> rfl
  have h1b : (write_branch s { cb with is_current := false }).branches =
      setA s.branches s.cur { cb with is_current := false } := by
    rw [write_branch_branches, hfn, hcbn]
  have h1c : (write_branch s { cb with is_current := false }).cur = s.cur := by
    unfold write_branch
    rw [if_neg (by simp)]
  have h2b : ∀ s1 : RepoState,
      (write_branch s1 { tb with is_current := true }).branches =
        setA s1.branches n { tb with is_current := true } := by
    intro s1
    rw [write_branch_branches, htn, htbn]
  have h2c : ∀ s1 : RepoState,
      (write_branch s1 { tb with is_current := true }).cur = n := by
    intro s1
    unfold write_branch
    rw [if_pos (by simp)]
    rw [htn, htbn]
  set s1 := write_branch s { cb with is_current := false } with hs1
  have hnd1 : (s1.branches.map Prod.fst).Nodup := by
    rw [h1b]
    exact nodup_keys_setA _ _ _ hnd
  refine ⟨?_, ?_, ?_, ?_⟩
  · rw [h2b s1]
    exact nodup_keys_setA _ _ _ hnd1
  · intro pr hpr
    rw [h2b s1] at hpr
    rcases mem_setA hpr with h' | h'
    · rw [h']
      rw [htn, htbn]
    · rw [h1b] at h'
      rcases mem_setA h' with h'' | h''
      · rw [h'']
        rw [hfn, hcbn]
      · exact hnames pr h''
  · refine ⟨{ tb with is_current := true }, ?_, rfl⟩
    rw [h2b s1, h2c s1]
    exact lookupA_setA_self _ _ _
  · intro pr hpr hprc
    rw [h2b s1] at hpr
    rw [h2c s1]
    rcases mem_setA_nodup hnd1 hpr with h' | h'
    · rw [h']
    · rw [h1b] at h'
      rcases mem_setA_nodup hnd h'.1 with h'' | h''
      · rw [h''] at hprc
        exact absurd hprc (by simp)
      · exact absurd (huniq pr h''.1 hprc) h''.2

theorem initState_regOK (wd : List (String × String)) : RegOK (initState wd) := by
  refine ⟨by simp [initState], ?_, ?_, ?_⟩
  · intro pr hpr
    simp only [initState, List.mem_singleton] at hpr
    rw [hpr]
    rfl
  · exact ⟨⟨"main", Commit.mk 0 "initial commit" [] [], true, none⟩, rfl, rfl⟩
  · intro pr hpr _
    simp only [initState, List.mem_singleton] at hpr
    rw [hpr]
    rfl

/-- The write half of the sync loop touches only the working directory. -/
theorem syncWriteStep_branchcur (curMap : List (String × Blob)) (pr : String × Blob)
    (s : RepoState) :
    ((syncWriteStep curMap pr s).1.branches, (syncWriteStep curMap pr s).1.cur) =
      (s.branches, s.cur) := by
  unfold syncWriteStep
  split <;> rfl

/-- The delete half of the sync loop touches only the working directory. -/
theorem syncDeleteStep_branchcur (tgtMap : List (String × Blob)) (pr : String × Blob)
    (s : RepoState) :
    ((syncDeleteStep tgtMap pr s).1.branches, (syncDeleteStep tgtMap pr s).1.cur) =
      (s.branches, s.cur) := by
  unfold syncDeleteStep
  repeat' split
  all_goals rfl

/-- The first merge loop's body never touches branches or the symlink. -/
theorem mergeStep1_branchcur (ocMap lcaMap : List (String × Blob)) (tc : Commit)
    (pr : String × Blob) (st : RepoState × Bool) :
    ((mergeStep1 ocMap lcaMap tc pr st).1.1.branches,
      (mergeStep1 ocMap lcaMap tc pr st).1.1.cur) = (st.1.branches, st.1.cur) := by
  have h := mergeStep1_frame ocMap lcaMap tc pr st
  rw [h.1, h.2.1]

/-- The second merge loop's body touches only the working directory and the
stage; branches, the symlink, and the commit store are unchanged, and the
working directory changes only at the entry's own path. -/
theorem mergeStep2_frame (tcMap lcaMap : List (String × Blob)) (tc : Commit)
    (pr : String × Blob) (st : RepoState × Bool) :
    (mergeStep2 tcMap lcaMap tc pr st).1.1.branches = st.1.branches ∧
    (mergeStep2 tcMap lcaMap tc pr st).1.1.cur = st.1.cur ∧
    (mergeStep2 tcMap lcaMap tc pr st).1.1.commits = st.1.commits ∧
    ∀ k, k ≠ pr.1 → wdRead (mergeStep2 tcMap lcaMap tc pr st).1.1 k = wdRead st.1 k := by
  obtain ⟨s, confl⟩ := st
  unfold mergeStep2
  dsimp only
  split
  · exact ⟨rfl, rfl, rfl, fun k hk => rfl⟩
  · split
    · split
      · refine ⟨by rw [add_branches]; rfl, by rw [add_cur]; rfl,
          by rw [add_commits]; rfl, ?_⟩
        intro k hk
        rw [wdRead_add, wdRead_wdWrite_ne _ _ _ _ hk]
      · refine ⟨by rw [removeOp_branches], by rw [removeOp_cur],
          by rw [removeOp_commits], ?_⟩
        intro k hk
        exact removeOp_wd_ne s pr.1 k hk
    · split
      · rcases hco : checkout_commit s tc pr.1 with ⟨s1, e1⟩
        cases e1 with
        | none =>
          simp only [hco]
          have hs1 : s1 = (checkout_commit s tc pr.1).1 := by rw [hco]
          refine ⟨?_, ?_, ?_, ?_⟩
          · rw [add_branches, hs1, checkout_commit_branches]
          · rw [add_cur, hs1, checkout_commit_cur]
          · rw [add_commits, hs1, checkout_commit_commits]
          · intro k hk
            rw [wdRead_add, hs1, checkout_commit_wd_ne _ _ _ _ hk]
        | some e =>
          simp only [hco]
          have hs1 : s1 = (checkout_commit s tc pr.1).1 := by rw [hco]
          refine ⟨by rw [hs1, checkout_commit_branches],
            by rw [hs1, checkout_commit_cur],
            by rw [hs1, checkout_commit_commits], ?_⟩
          intro k hk
          rw [hs1, checkout_commit_wd_ne _ _ _ _ hk]
      · exact ⟨rfl, rfl, rfl, fun k hk => rfl⟩

/-- The second merge loop's body never touches branches or the symlink. -/
theorem mergeStep2_branchcur (tcMap lcaMap : List (String × Blob)) (tc : Commit)
    (pr : String × Blob) (st : RepoState × Bool) :
    ((mergeStep2 tcMap lcaMap tc pr st).1.1.branches,
      (mergeStep2 tcMap lcaMap tc pr st).1.1.cur) = (st.1.branches, st.1.cur) := by
  have h := mergeStep2_frame tcMap lcaMap tc pr st
  rw [h.1, h.2.1]

/-- A fold whose body preserves branches and the symlink preserves both. -/
theorem foldl_branchcur {α : Type} (f : RepoState → α → RepoState) (l : List α)
    (s : RepoState)
    (hf : ∀ acc a, (f acc a).branches = acc.branches ∧ (f acc a).cur = acc.cur) :
    (l.foldl f s).branches = s.branches ∧ (l.foldl f s).cur = s.cur := by
  induction l generalizing s with
  | nil => exact ⟨rfl, rfl⟩
  | cons a rest ih =>
    have h1 := hf s a
    have h2 := ih (f s a)
    exact ⟨h2.1.trans h1.1, h2.2.trans h1.2⟩

/-- Writing a non-current branch only updates the branch file. -/
theorem write_branch_false (s : RepoState) (b : Branch) (h : b.is_current = false) :
    write_branch s b = { s with branches := setA s.branches b.name b } := by
  unfold write_branch
  rw [if_neg (by simp [h])]

/-- `add` preserves the registry invariant. -/
theorem add_regOK (s : RepoState) (p : String) (h : RegOK s) : RegOK (add s p).1 :=
  regOK_of_same s (add s p).1 (add_branches s p) (add_cur s p) h

/-- A successful `commit` preserves the registry invariant. -/
theorem commitOp_regOK (s : RepoState) (m : String) (now : Int) (h : RegOK s)
    (hsucc : (commitOp s m now).2 = none) : RegOK (commitOp s m now).1 := by
  unfold commitOp at hsucc ⊢
  by_cases h1 : s.stage = []
  · rw [if_pos h1] at hsucc
    simp at hsucc
  · rw [if_neg h1] at hsucc ⊢
    by_cases h2 : m = ""
    · rw [if_pos h2] at hsucc
      simp at hsucc
    · rw [if_neg h2] at hsucc ⊢
      cases hcb : lookupA s.branches s.cur with
      | none =>
        rw [hcb] at hsucc
        simp at hsucc
      | some cb =>
        rw [hcb] at hsucc
        dsimp only at hsucc ⊢
        have hframe := foldStage_frame s.stage s cb.commit.fileBlobMap
        rcases hfold : foldStage s.stage (s, cb.commit.fileBlobMap) with ⟨⟨s1, bd⟩, e⟩
        rw [hfold] at hsucc hframe
        cases e with
        | some e0 =>
          dsimp only at hsucc
          exact Option.noConfusion hsucc
        | none =>
          dsimp only
          have hcc := regOK_cur_branch s cb h hcb
          have hs1 : RegOK s1 := regOK_of_same s s1 hframe.1 hframe.2.1 h
          apply write_branch_cur_regOK
          · refine regOK_of_same s1 _ ?_ ?_ hs1
            · rw [commitWrite_branches]
            · rw [commitWrite_cur]
          · rw [Branch.name_commit_update, commitWrite_cur]
            show cb.name = s1.cur
            rw [hframe.2.1]
            exact hcc.1
          · exact hcc.2

/-- A successful `branch` preserves the registry invariant. -/
theorem branchOp_regOK (s : RepoState) (n : String) (h : RegOK s)
    (hsucc : (branchOp s n).2 = none) : RegOK (branchOp s n).1 := by
  unfold branchOp at hsucc ⊢
  by_cases h1 : memA s.branches n = true
  · rw [if_pos (by simp [h1])] at hsucc
    simp at hsucc
  · rw [if_neg (by simp [h1])] at hsucc ⊢
    cases hcb : lookupA s.branches s.cur with
    | none =>
      rw [hcb] at hsucc
      simp at hsucc
    | some cb =>
      dsimp only
      rw [write_branch_false _ _ rfl]
      apply setA_false_regOK _ _ _ h _ rfl rfl
      intro he
      apply h1
      have he2 : n = s.cur := he
      rw [he2]
      simp [memA, hcb]

/-- A successful `remove_branch` preserves the registry invariant. -/
theorem remove_branchOp_regOK (s : RepoState) (n : String) (h : RegOK s)
    (hsucc : (remove_branchOp s n).2 = none) : RegOK (remove_branchOp s n).1 := by
  unfold remove_branchOp at hsucc ⊢
  by_cases h1 : memA s.branches n = true
  · rw [if_neg (by simp [h1])] at hsucc ⊢
    cases hcb : lookupA s.branches s.cur with
    | none =>
      rw [hcb] at hsucc
      simp at hsucc
    | some cb =>
      rw [hcb] at hsucc
      dsimp only at hsucc ⊢
      by_cases h2 : cb.name = n
      · rw [if_pos h2] at hsucc
        simp at hsucc
      · rw [if_neg h2]
        apply delA_regOK _ _ h
        intro he
        apply h2
        rw [(regOK_cur_branch s cb h hcb).1, he]
  · rw [if_pos (by simp [h1])] at hsucc
    simp at hsucc

/-- A successful `checkout_branch` preserves the registry invariant. -/
theorem checkout_branch_regOK (s : RepoState) (n : String) (h : RegOK s)
    (hsucc : (checkout_branch s n).2 = none) : RegOK (checkout_branch s n).1 := by
  unfold checkout_branch at hsucc ⊢
  cases hcb : lookupA s.branches s.cur with
  | none =>
    rw [hcb] at hsucc
    simp at hsucc
  | some cb =>
    rw [hcb] at hsucc
    dsimp only at hsucc ⊢
    cases htb : lookupA s.branches n with
    | none =>
      rw [htb] at hsucc
      simp at hsucc
    | some tb =>
      rw [htb] at hsucc
      dsimp only at hsucc ⊢
      by_cases h2 : cb.name = n
      · rw [if_pos h2] at hsucc
        simp at hsucc
      · rw [if_neg h2] at hsucc ⊢
        rcases hsw : stepList (syncWriteStep cb.commit.fileBlobMap)
            tb.commit.fileBlobMap s with ⟨s1, e1⟩
        rw [hsw] at hsucc
        have hf1 := stepList_frame (syncWriteStep cb.commit.fileBlobMap)
          (fun st => (st.branches, st.cur)) tb.commit.fileBlobMap s
          (fun a _ st1 => syncWriteStep_branchcur _ a st1)
        rw [hsw] at hf1
        cases e1 with
        | some e =>
          dsimp only at hsucc
          exact Option.noConfusion hsucc
        | none =>
          dsimp only at hsucc ⊢
          rcases hsd : stepList (syncDeleteStep tb.commit.fileBlobMap)
              cb.commit.fileBlobMap s1 with ⟨s2, e2⟩
          rw [hsd] at hsucc
          have hf2 := stepList_frame (syncDeleteStep tb.commit.fileBlobMap)
            (fun st => (st.branches, st.cur)) cb.commit.fileBlobMap s1
            (fun a _ st1 => syncDeleteStep_branchcur _ a st1)
          rw [hsd] at hf2
          cases e2 with
          | some e =>
          dsimp only at hsucc
          exact Option.noConfusion hsucc
          | none =>
            dsimp only
            have hb2 : s2.branches = s.branches := by
              have := congrArg Prod.fst hf2
              have h2' := congrArg Prod.fst hf1
              simp at this h2'
              rw [this, h2']
            have hc2 : s2.cur = s.cur := by
              have := congrArg Prod.snd hf2
              have h2' := congrArg Prod.snd hf1
              simp at this h2'
              rw [this, h2']
            have hreg3 : RegOK { s2 with stage := [] } :=
              regOK_of_same s _ hb2 hc2 h
            apply checkout_pair_regOK { s2 with stage := [] } cb tb n hreg3
            · show lookupA s2.branches s2.cur = some cb
              rw [hb2, hc2]
              exact hcb
            · show lookupA s2.branches n = some tb
              rw [hb2]
              exact htb
            · intro he
              apply h2
              rw [(regOK_cur_branch s cb h hcb).1, ← hc2, ← he]

/-- A successful `reset` preserves the registry invariant. -/
theorem resetOp_regOK (s : RepoState) (cid : Commit) (h : RegOK s)
    (hsucc : (resetOp s cid).2 = none) : RegOK (resetOp s cid).1 := by
  unfold resetOp at hsucc ⊢
  by_cases h1 : cid ∈ s.commits
  · rw [if_pos h1] at hsucc ⊢
    cases hcb : lookupA s.branches s.cur with
    | none =>
      rw [hcb] at hsucc
      simp at hsucc
    | some cb =>
      rw [hcb] at hsucc
      dsimp only at hsucc ⊢
      rcases hsw : stepList (syncWriteStep cb.commit.fileBlobMap)
          cid.fileBlobMap s with ⟨s1, e1⟩
      rw [hsw] at hsucc
      have hf1 := stepList_frame (syncWriteStep cb.commit.fileBlobMap)
        (fun st => (st.branches, st.cur)) cid.fileBlobMap s
        (fun a _ st1 => syncWriteStep_branchcur _ a st1)
      rw [hsw] at hf1
      cases e1 with
      | some e =>
        dsimp only at hsucc
        exact Option.noConfusion hsucc
      | none =>
        dsimp only at hsucc ⊢
        rcases hsd : stepList (syncDeleteStep cid.fileBlobMap)
            cb.commit.fileBlobMap s1 with ⟨s2, e2⟩
        rw [hsd] at hsucc
        have hf2 := stepList_frame (syncDeleteStep cid.fileBlobMap)
          (fun st => (st.branches, st.cur)) cb.commit.fileBlobMap s1
          (fun a _ st1 => syncDeleteStep_branchcur _ a st1)
        rw [hsd] at hf2
        cases e2 with
        | some e =>
          dsimp only at hsucc
          exact Option.noConfusion hsucc
        | none =>
          dsimp only at hsucc ⊢
          have hb2 : s2.branches = s.branches := by
            have := congrArg Prod.fst hf2
            have h2' := congrArg Prod.fst hf1
            simp at this h2'
            rw [this, h2']
          have hc2 : s2.cur = s.cur := by
            have := congrArg Prod.snd hf2
            have h2' := congrArg Prod.snd hf1
            simp at this h2'
            rw [this, h2']
          cases hcb2 : lookupA s2.branches s2.cur with
          | none =>
            rw [hcb2] at hsucc
            simp at hsucc
          | some cb2 =>
            dsimp only
            have hreg3 : RegOK { s2 with stage := ([] : List (String × Blob)) } :=
              regOK_of_same s _ hb2 hc2 h
            have hcc := regOK_cur_branch _ cb2 hreg3 hcb2
            apply write_branch_cur_regOK _ _ hreg3
            · rw [Branch.name_commit_update]
              exact hcc.1
            · exact hcc.2
  · rw [if_neg h1] at hsucc
    simp at hsucc

/-- A successful `merge_commit` on the current branch preserves the
registry invariant. -/
theorem merge_commitOp_regOK (s : RepoState) (ob tb : Branch) (now : Int)
    (h : RegOK s) (hcb : lookupA s.branches s.cur = some ob)
    (hsucc : (merge_commitOp s ob tb now).2 = none) :
    RegOK (merge_commitOp s ob tb now).1 := by
  unfold merge_commitOp at hsucc ⊢
  have hframe := foldStage_frame s.stage s ob.commit.fileBlobMap
  rcases hfold : foldStage s.stage (s, ob.commit.fileBlobMap) with ⟨⟨s1, bd⟩, e⟩
  rw [hfold] at hsucc hframe
  cases e with
  | some e0 =>
    dsimp only at hsucc
    exact Option.noConfusion hsucc
  | none =>
    dsimp only
    have hcc := regOK_cur_branch s ob h hcb
    have hs1 : RegOK s1 := regOK_of_same s s1 hframe.1 hframe.2.1 h
    apply write_branch_cur_regOK
    · refine regOK_of_same s1 _ ?_ ?_ hs1
      · rw [commitWrite_branches]
      · rw [commitWrite_cur]
    · rw [Branch.name_commit_update, commitWrite_cur]
      show ob.name = s1.cur
      rw [hframe.2.1]
      exact hcc.1
    · exact hcc.2

/-- A successful `merge` preserves the registry invariant. -/
theorem mergeOp_regOK (s : RepoState) (n : String) (now : Int) (h : RegOK s)
    (hsucc : (mergeOp s n now).2 = none) : RegOK (mergeOp s n now).1 := by
  unfold mergeOp at hsucc ⊢
  by_cases hst : s.stage = []
  · rw [if_neg (by simp [hst])] at hsucc ⊢
    by_cases h2 : memA s.branches n = true
    · rw [if_neg (by simp [h2])] at hsucc ⊢
      cases hcb : lookupA s.branches s.cur with
      | none =>
        rw [hcb] at hsucc
        simp at hsucc
      | some cb0 =>
        rw [hcb] at hsucc
        dsimp only at hsucc ⊢
        by_cases h3 : cb0.name = n
        · rw [if_pos h3] at hsucc
          simp at hsucc
        · rw [if_neg h3] at hsucc ⊢
          cases htb : lookupA s.branches n with
          | none =>
            rw [htb] at hsucc
            simp at hsucc
          | some tb =>
            rw [htb] at hsucc
            dsimp only at hsucc ⊢
            cases hlca : latest_common_ancestor cb0.commit tb.commit with
            | none =>
              rw [hlca] at hsucc
              simp at hsucc
            | some lca =>
              rw [hlca] at hsucc
              dsimp only at hsucc ⊢
              by_cases h4 : lca = tb.commit
              · rw [if_pos h4]
                exact regOK_of_same s _ rfl rfl h
              · rw [if_neg h4] at hsucc ⊢
                by_cases h5 : lca = cb0.commit
                · rw [if_pos h5] at hsucc ⊢
                  rcases hco : checkout_branch s tb.name with ⟨s1, e1⟩
                  rw [hco] at hsucc
                  cases e1 with
                  | some e =>
                    dsimp only at hsucc
                    exact Option.noConfusion hsucc
                  | none =>
                    dsimp only
                    have hs1 : RegOK s1 := by
                      have hx := checkout_branch_regOK s tb.name h (by rw [hco])
                      rw [hco] at hx
                      exact hx
                    exact regOK_of_same s1 _ rfl rfl hs1
                · rw [if_neg h5] at hsucc ⊢
                  rcases hm1 : stepList
                      (mergeStep1 cb0.commit.fileBlobMap lca.fileBlobMap tb.commit)
                      tb.commit.fileBlobMap (s, false) with ⟨⟨s1, confl1⟩, e1⟩
                  rw [hm1] at hsucc
                  have hf1 := stepList_frame
                    (mergeStep1 cb0.commit.fileBlobMap lca.fileBlobMap tb.commit)
                    (fun st => (st.1.branches, st.1.cur)) tb.commit.fileBlobMap (s, false)
                    (fun a _ st1 => mergeStep1_branchcur _ _ _ a st1)
                  rw [hm1] at hf1
                  cases e1 with
                  | some e =>
                    dsimp only at hsucc
                    exact Option.noConfusion hsucc
                  | none =>
                    dsimp only at hsucc ⊢
                    rcases hm2 : stepList
                        (mergeStep2 tb.commit.fileBlobMap lca.fileBlobMap tb.commit)
                        cb0.commit.fileBlobMap (s1, confl1) with ⟨⟨s2, confl2⟩, e2⟩
                    rw [hm2] at hsucc
                    have hf2 := stepList_frame
                      (mergeStep2 tb.commit.fileBlobMap lca.fileBlobMap tb.commit)
                      (fun st => (st.1.branches, st.1.cur)) cb0.commit.fileBlobMap
                      (s1, confl1)
                      (fun a _ st1 => mergeStep2_branchcur _ _ _ a st1)
                    rw [hm2] at hf2
                    cases e2 with
                    | some e =>
                      dsimp only at hsucc
                      exact Option.noConfusion hsucc
                    | none =>
                      dsimp only at hsucc ⊢
                      have hb1 := congrArg Prod.fst hf1
                      have hc1 := congrArg Prod.snd hf1
                      have hb2 := congrArg Prod.fst hf2
                      have hc2 := congrArg Prod.snd hf2
                      simp at hb1 hc1 hb2 hc2
                      have hbs : s2.branches = s.branches := hb2.trans hb1
                      have hcs : s2.cur = s.cur := hc2.trans hc1
                      have hs2 : RegOK s2 := regOK_of_same s s2 hbs hcs h
                      cases hcb1 : lookupA s2.branches s2.cur with
                      | none =>
                        rw [hcb1] at hsucc
                        simp at hsucc
                      | some cb1 =>
                        rw [hcb1] at hsucc
                        dsimp only at hsucc ⊢
                        rcases hmc : merge_commitOp s2 cb1 tb now with ⟨s3, e3⟩
                        rw [hmc] at hsucc
                        cases e3 with
                        | some e =>
                          dsimp only at hsucc
                          exact Option.noConfusion hsucc
                        | none =>
                          dsimp only
                          have hreg3 : RegOK s3 := by
                            have hx := merge_commitOp_regOK s2 cb1 tb now hs2 hcb1
                              (by rw [hmc])
                            rw [hmc] at hx
                            exact hx
                          cases confl2 with
                          | true =>
                            rw [if_pos rfl]
                            exact regOK_of_same s3 _ rfl rfl hreg3
                          | false =>
                            rw [if_neg (by simp)]
                            exact hreg3
    · rw [if_pos (by simp [h2])] at hsucc
      simp at hsucc
  · rw [if_pos hst] at hsucc
    simp at hsucc

/-- A successful `fetch` that does not target the checked-out branch
preserves the registry invariant. -/
theorem fetchOp_regOK (s : RepoState) (rn : String) (r : Option RepoState) (bn : String)
    (h : RegOK s) (hg : rn ++ "/" ++ bn ≠ s.cur)
    (hsucc : (fetchOp s rn r bn).2 = none) : RegOK (fetchOp s rn r bn).1 := by
  unfold fetchOp at hsucc ⊢
  cases r with
  | none => simp at hsucc
  | some rs =>
    dsimp only at hsucc ⊢
    cases hrb : lookupA rs.branches bn with
    | none =>
      rw [hrb] at hsucc
      simp at hsucc
    | some rb =>
      rw [hrb] at hsucc
      dsimp only at hsucc ⊢
      cases hhist : commit_history rb.commit with
      | nil =>
        rw [hhist] at hsucc
        simp at hsucc
      | cons tip rest =>
        rw [hhist] at hsucc
        dsimp only at hsucc ⊢
        have hfold := foldl_branchcur
          (fun acc c =>
            c.fileBlobMap.foldl
              (fun acc2 pr =>
                if memA acc2.blobs pr.1 then acc2 else blobWrite acc2 pr.1 pr.2)
              (commitWrite acc c))
          (tip :: rest) s
          (by
            intro acc c
            have hin := foldl_branchcur
              (fun acc2 pr =>
                if memA acc2.blobs pr.1 then acc2 else blobWrite acc2 pr.1 pr.2)
              c.fileBlobMap (commitWrite acc c)
              (by
                intro acc2 pr
                dsimp only
                split
                · exact ⟨rfl, rfl⟩
                · exact ⟨rfl, rfl⟩)
            constructor
            · rw [hin.1, commitWrite_branches]
            · rw [hin.2, commitWrite_cur])
        refine setA_false_regOK _ (rn ++ "/" ++ bn) _
          (regOK_of_same s _ hfold.1 hfold.2 h) ?_ rfl rfl
        rw [hfold.2]
        exact hg

/-- A successful `pull` that does not target the checked-out branch
preserves the registry invariant. -/
theorem pullOp_regOK (s : RepoState) (rn : String) (r : Option RepoState) (bn : String)
    (now : Int) (h : RegOK s) (hg : rn ++ "/" ++ bn ≠ s.cur)
    (hsucc : (pullOp s rn r bn now).2 = none) : RegOK (pullOp s rn r bn now).1 := by
  unfold pullOp at hsucc ⊢
  rcases hf : fetchOp s rn r bn with ⟨s1, e1⟩
  rw [hf] at hsucc
  cases e1 with
  | some e =>
    dsimp only at hsucc
    exact Option.noConfusion hsucc
  | none =>
    dsimp only at hsucc ⊢
    have h1 : RegOK s1 := by
      have hx := fetchOp_regOK s rn r bn h hg (by rw [hf])
      rw [hf] at hx
      exact hx
    exact mergeOp_regOK s1 (rn ++ "/" ++ bn) now h1 hsucc

/-- A Nodup list in which every member equals `a` and which contains `a` is
the singleton `[a]`. -/
theorem nodup_all_eq_singleton {α : Type} (l : List α) (a : α) (hnd : l.Nodup)
    (ha : a ∈ l) (hall : ∀ x ∈ l, x = a) : l = [a] := by
  cases l with
  | nil => cases ha
  | cons x xs =>
    have hx : x = a := hall x (List.mem_cons_self _ _)
    subst hx
    cases xs with
    | nil => rfl
    | cons y ys =>
      have hy : y = x := hall y (by simp)
      rw [hy] at hnd
      simp at hnd

/-- Every state reachable by completed operations respecting the fetch side
condition satisfies the branch-registry invariant. -/
theorem reachedSafe_regOK (s : RepoState) (h : ReachedSafe s) : RegOK s := by
  induction h with
  | base wd => exact initState_regOK wd
  | step s s' op hr hg hrun ih =>
    cases op with
    | addF p =>
      have h1 : add s p = (s', none) := hrun
      have h2 := add_regOK s p ih
      rw [h1] at h2
      exact h2
    | commitF m now =>
      have h1 : commitOp s m now = (s', none) := hrun
      have h2 := commitOp_regOK s m now ih (by rw [h1])
      rw [h1] at h2
      exact h2
    | branchF n =>
      have h1 : branchOp s n = (s', none) := hrun
      have h2 := branchOp_regOK s n ih (by rw [h1])
      rw [h1] at h2
      exact h2
    | removeBranchF n =>
      have h1 : remove_branchOp s n = (s', none) := hrun
      have h2 := remove_branchOp_regOK s n ih (by rw [h1])
      rw [h1] at h2
      exact h2
    | checkoutBranchF n =>
      have h1 : checkout_branch s n = (s', none) := hrun
      have h2 := checkout_branch_regOK s n ih (by rw [h1])
      rw [h1] at h2
      exact h2
    | resetF c =>
      have h1 : resetOp s c = (s', none) := hrun
      have h2 := resetOp_regOK s c ih (by rw [h1])
      rw [h1] at h2
      exact h2
    | mergeF n now =>
      have h1 : mergeOp s n now = (s', none) := hrun
      have h2 := mergeOp_regOK s n now ih (by rw [h1])
      rw [h1] at h2
      exact h2
    | fetchF rn r bn =>
      have h1 : fetchOp s rn r bn = (s', none) := hrun
      have hg1 : rn ++ "/" ++ bn ≠ s.cur := hg
      have h2 := fetchOp_regOK s rn r bn ih hg1 (by rw [h1])
      rw [h1] at h2
      exact h2
    | pushF rn r bn =>
      have h1 : (s, (pushOp s rn r bn).2) = (s', none) := hrun
      have h2 : s = s' := congrArg Prod.fst h1
      rw [← h2]
      exact ih
    | pullF rn r bn now =>
      have h1 : pullOp s rn r bn now = (s', none) := hrun
      have hg1 : rn ++ "/" ++ bn ≠ s.cur := hg
      have h2 := pullOp_regOK s rn r bn now ih hg1 (by rw [h1])
      rw [h1] at h2
      exact h2

/-! Claim theorems: the trial counterexample and demonstration batch. -/

/-- C1: during the non-fast-forward merge of `other` into `main`, the path
`f` is present in the LCA, the origin, and the target; origin and target
both changed it from the LCA's `"a"` to the same new hash (`"b"`), yet the
code records a conflict: it writes conflict-marked content for `f`, and
prints the conflict message — the claim says no conflict is recorded in this
case.  The cause is source line 874, which compares the origin Blob object
itself (not its hash) against the string `blob.hash`, a test that is always
true in Python. -/
theorem C1_merge_same_hash_conflicts :
    lookupA m1Lca.fileBlobMap "f" = some m1BlobA ∧
    lookupA m1Origin.fileBlobMap "f" = some m1BlobB ∧
    lookupA m1Target.fileBlobMap "f" = some m1BlobB ∧
    m1BlobA.hash ≠ m1BlobB.hash ∧
    latest_common_ancestor m1Origin m1Target = some m1Lca ∧
    (mergeOp m1State "other" 20).2 = none ∧
    wdRead (mergeOp m1State "other" 20).1 "f" =
      some (generate_conflict m1BlobB.contents m1BlobB.contents) ∧
    "Encountered a merge conflict." ∈ (mergeOp m1State "other" 20).1.output := by
  decide

/-- C2 counterexample: `commit_history` of the merge commit `exT` places the
root commit at position 4 and ends with `exD` instead — the root is not
last; and on the two merges `exM`, `exM2` (which share the root)
`latest_common_ancestor` returns `exA2` while the last element of the
longest common rooted stem of the reversed histories is the root, so the
code's result is not the one the claim describes. -/
theorem C2_root_not_last :
    exRoot.parents = [] ∧
    commit_history exT = [exT, exA, exB, exC, exRoot, exD] ∧
    (commit_history exT).getLast? = some exD ∧
    exD ≠ exRoot ∧
    latest_common_ancestor exT exRoot = none ∧
    latest_common_ancestor exM exM2 = some exA2 ∧
    lastOfCommonStem ((commit_history exM).reverse) ((commit_history exM2).reverse) =
      some exRoot ∧
    exA2 ≠ exRoot := by
  decide

/-- C4 counterexample: committing a stage whose only entry is a `Deleted`
blob that is not yet in the blob store and whose path the parent commit
does not track: the blob is persisted anyway (source line 283 tests `not
stored or not deleted`, not `not stored and not deleted`), and the map
update then raises an unhandled `KeyError` (`frozendict.delete` on a
missing key, line 288), so no commit is created, the branch does not move
and the raising entry stays staged — while the claim allows persisting
only non-`Deleted` blobs and promises a created commit, a moved branch and
an emptied stage. -/
theorem C4_deleted_blob_persisted :
    lookupA c4State.stage "p" = some ⟨"p", "c", Diff.deleted⟩ ∧
    memA c4State.blobs (Blob.hash ⟨"p", "c", Diff.deleted⟩) = false ∧
    memA exRoot.fileBlobMap "p" = false ∧
    (commitOp c4State "m" 7).2 = some PErr.ioError ∧
    lookupA (commitOp c4State "m" 7).1.blobs "c" = some ⟨"p", "c", Diff.deleted⟩ ∧
    (commitOp c4State "m" 7).1.commits = c4State.commits ∧
    (commitOp c4State "m" 7).1.branches = c4State.branches ∧
    (commitOp c4State "m" 7).1.stage = c4State.stage := by
  decide

/-- C6 counterexample: `p` is tracked by the current commit and not staged,
so the `NothingToRemove` guard passes, but the working file `p` is absent
and `remove` raises (`read_text` on a missing file) instead of tolerating
the missing working file as the claim states. -/
theorem C6_missing_file_fails :
    memA c6State.stage "p" = false ∧
    memA c6Commit.fileBlobMap "p" = true ∧
    lookupA c6State.branches c6State.cur = some ⟨"main", c6Commit, true, none⟩ ∧
    wdRead c6State "p" = none ∧
    (removeOp c6State "p").2 = some PErr.ioError := by
  decide

/-- C7: fetching `main` from a remote that tracks `a.txt ↦ "x"` stores the
fetched blob under the key `a.txt` — the file path — and not under its
content hash `"x"` (source line 1053 iterates `file_blob_map.items()`,
whose keys are paths, though the loop variable is named `blob_hash`).  The
commit itself and the remote-tracking branch are created as the claim
says. -/
theorem C7_fetch_blob_keyed_by_path :
    Blob.hash ⟨"a.txt", "x", Diff.added⟩ = "x" ∧
    (fetchOp (initState []) "origin" (some c7Remote) "main").2 = none ∧
    lookupA (fetchOp (initState []) "origin" (some c7Remote) "main").1.blobs "a.txt" =
      some ⟨"a.txt", "x", Diff.added⟩ ∧
    lookupA (fetchOp (initState []) "origin" (some c7Remote) "main").1.blobs "x" = none ∧
    c7Commit ∈ (fetchOp (initState []) "origin" (some c7Remote) "main").1.commits ∧
    lookupA (fetchOp (initState []) "origin" (some c7Remote) "main").1.branches
      "origin/main" = some ⟨"main", c7Commit, false, some "origin"⟩ := by
  decide

/-- C8 counterexample: pushing branch `feature` to a remote that lacks it
does not create a remote branch named `feature`; instead the local current
branch is written to the remote under its own name `main`, overwriting the
remote's `main` with a non-current copy. -/
theorem C8_push_creates_wrong_name :
    memA (initState []).branches "feature" = false ∧
    (pushOp c8Local "origin" (some (initState [])) "feature").2 = none ∧
    ((pushOp c8Local "origin" (some (initState [])) "feature").1.map
      (fun rs => lookupA rs.branches "feature")) = some none ∧
    ((pushOp c8Local "origin" (some (initState [])) "feature").1.map
      (fun rs => lookupA rs.branches "main")) =
      some (some ⟨"main", c8Tip, false, none⟩) := by
  decide

/-- C9 counterexample: the state `c9Bad` is reached from `init` by the
completed operations `fetch origin main`, `checkout_branch origin/main`,
`fetch origin main` (against a fresh remote), yet no branch in its registry
has `is_current` true — the second fetch overwrote the checked-out
remote-tracking branch file with a non-current copy, so the claim's
"exactly one current branch" fails on a reachable state. -/
theorem C9_zero_current :
    Reached c9Bad ∧
    (c9Bad.branches.filter (fun pr => pr.2.is_current)).length = 0 ∧
    c9Bad.cur = "origin/main" := by
  refine ⟨?_, by decide, by decide⟩
  have h0 : Reached (initState []) := Reached.base []
  have h1 : Reached c9Mid1 :=
    Reached.step _ _ (Op.fetchF "origin" (some (initState [])) "main") h0 (by decide)
  have h2 : Reached c9Mid2 :=
    Reached.step _ _ (Op.checkoutBranchF "origin/main") h1 (by decide)
  exact Reached.step _ _ (Op.fetchF "origin" (some (initState [])) "main") h2 (by decide)

/-- C10: when a path already has a staged entry whose diff state is not
`Deleted`, `add` returns the state entirely unchanged and raises no error,
regardless of the working file's presence or contents. -/
theorem C10_add_noop_when_staged (s : RepoState) (p : String) (staged : Blob)
    (hstaged : lookupA s.stage p = some staged) (hnd : staged.diff ≠ Diff.deleted) :
    add s p = (s, none) := by
  unfold add
  rw [hstaged]
  simp [hnd]

/-- C10 witness: the hypotheses of `C10_add_noop_when_staged` hold at the
concrete repository `c4Witness` with its staged entry for `q`. -/
theorem C10_witness :
    lookupA c4Witness.stage "q" = some ⟨"q", "v", Diff.added⟩ ∧
    (⟨"q", "v", Diff.added⟩ : Blob).diff ≠ Diff.deleted ∧
    add c4Witness "q" = (c4Witness, none) :=
  ⟨by decide, by decide,
    C10_add_noop_when_staged c4Witness "q" ⟨"q", "v", Diff.added⟩ (by decide) (by decide)⟩


/-- C9: amended invariant — in every state reachable from `init` by
completed operations in which no fetch (or pull) targets the currently
checked-out remote-tracking branch, exactly one branch file is marked
current, and it is the one the `current_branch` symlink points to; every
branch file marked current equals that branch. -/
theorem C9_one_current (s : RepoState) (h : ReachedSafe s) :
    (s.branches.filter (fun pr => pr.2.is_current)).length = 1 ∧
    ∃ b, lookupA s.branches s.cur = some b ∧ b.is_current = true ∧
      ∀ pr ∈ s.branches, pr.2.is_current = true → pr.2 = b := by
  obtain ⟨hnd, hnames, ⟨b0, hb0, hb0c⟩, huniq⟩ := reachedSafe_regOK s h
  have hmem : (s.cur, b0) ∈ s.branches := mem_of_lookupA hb0
  have hall : ∀ x ∈ s.branches.filter (fun pr => pr.2.is_current),
      x = (s.cur, b0) := by
    intro x hx
    obtain ⟨hx1, hx2⟩ := List.mem_filter.mp hx
    have hk : x.1 = s.cur := huniq x hx1 (by simpa using hx2)
    have hl := lookupA_of_mem_nodup hnd hx1
    rw [hk, hb0] at hl
    have hv : x.2 = b0 := Option.some.inj hl.symm
    calc x = (x.1, x.2) := rfl
    _ = (s.cur, b0) := by rw [hk, hv]
  have hsing : s.branches.filter (fun pr => pr.2.is_current) = [(s.cur, b0)] := by
    apply nodup_all_eq_singleton _ _ (List.Nodup.filter _ (hnd.of_map))
    · exact List.mem_filter.mpr ⟨hmem, by simpa using hb0c⟩
    · exact hall
  refine ⟨by rw [hsing]; rfl, b0, hb0, hb0c, ?_⟩
  intro pr hpr hprc
  have hx := hall pr (List.mem_filter.mpr ⟨hpr, by simpa using hprc⟩)
  rw [hx]

/-- C9 witness: the initial repository is safely reachable, and there the
single current branch is `main`. -/
theorem C9_witness :
    ReachedSafe (initState []) ∧
    (((initState []).branches.filter (fun pr => pr.2.is_current)).length = 1 ∧
      ∃ b, lookupA (initState []).branches (initState []).cur = some b ∧
        b.is_current = true ∧ ∀ pr ∈ (initState []).branches,
          pr.2.is_current = true → pr.2 = b) :=
  ⟨ReachedSafe.base [], C9_one_current (initState []) (ReachedSafe.base [])⟩

/-- C5: the conflict body is byte-exact `"<<<<<<< HEAD\n" ++ origin_side ++
"=======\n" ++ target_side ++ ">>>>>>>\n"`; whenever the body of either
merge loop flags a conflict for a path, the file written at that path is
`generate_conflict` of the origin side's literal contents (`"\n"` when the
origin lacks the path) and the target side's literal contents (`"\n"` when
the target lacks the path). -/
theorem C5_conflict_format :
    (∀ o t, generate_conflict o t =
      "<<<<<<< HEAD\n" ++ o ++ "=======\n" ++ t ++ ">>>>>>>\n") ∧
    (∀ (ocMap lcaMap : List (String × Blob)) (tc : Commit) (p : String)
        (blob : Blob) (s : RepoState),
      (mergeStep1 ocMap lcaMap tc (p, blob) (s, false)).1.2 = true →
        wdRead (mergeStep1 ocMap lcaMap tc (p, blob) (s, false)).1.1 p =
          some (generate_conflict
            (match lookupA ocMap p with
             | some ob => ob.contents
             | none => "\n")
            blob.contents)) ∧
    (∀ (tcMap lcaMap : List (String × Blob)) (tc : Commit) (p : String)
        (blob : Blob) (s : RepoState),
      (mergeStep2 tcMap lcaMap tc (p, blob) (s, false)).1.2 = true →
        wdRead (mergeStep2 tcMap lcaMap tc (p, blob) (s, false)).1.1 p =
          some (generate_conflict blob.contents
            (match lookupA tcMap p with
             | some tb2 => tb2.contents
             | none => "\n"))) := by
  refine ⟨fun o t => rfl, ?_, ?_⟩
  · intro ocMap lcaMap tc p blob s h
    unfold mergeStep1 at h ⊢
    dsimp only at h ⊢
    by_cases hg : (wdRead s p).isSome = true ∧ ¬ memA ocMap p = true
    · rw [if_pos hg] at h
      exact Bool.noConfusion h
    · rw [if_neg hg] at h ⊢
      cases hl : lookupA lcaMap p with
      | none =>
        rw [hl] at h
        dsimp only at h ⊢
        cases ho : lookupA ocMap p with
        | some ob =>
          rw [ho] at h
          dsimp only at h ⊢
          by_cases hd : ¬ ob.hash = blob.hash
          · rw [if_pos hd]
            rw [wdRead_add, wdRead_wdWrite_self]
          · rw [if_neg hd] at h
            rcases hco : checkout_commit s tc p with ⟨s1, e1⟩
            rw [hco] at h
            cases e1 with
            | some e =>
              dsimp only at h
              exact Bool.noConfusion h
            | none =>
              dsimp only at h
              exact Bool.noConfusion h
        | none =>
          rw [ho] at h
          dsimp only at h
          rcases hco : checkout_commit s tc p with ⟨s1, e1⟩
          rw [hco] at h
          cases e1 with
          | some e =>
            dsimp only at h
            exact Bool.noConfusion h
          | none =>
            dsimp only at h
            exact Bool.noConfusion h
      | some lb =>
        rw [hl] at h
        dsimp only at h ⊢
        by_cases hc1 : ¬ lb.hash = blob.hash ∧ ¬ memA ocMap p = true
        · rw [if_pos hc1]
          have hon : lookupA ocMap p = none := by
            cases hlo : lookupA ocMap p with
            | none => rfl
            | some v =>
              exact absurd (by simp [memA, hlo]) hc1.2
          rw [hon]
          rw [wdRead_add, wdRead_wdWrite_self]
        · rw [if_neg hc1] at h ⊢
          cases ho : lookupA ocMap p with
          | some ob =>
            rw [ho] at h
            dsimp only at h ⊢
            by_cases hc2 : ¬ lb.hash = blob.hash ∧ ¬ lb = ob ∧
                blobNeqHashStr ob blob.hash = true
            · rw [if_pos hc2]
              rw [wdRead_add, wdRead_wdWrite_self]
            · rw [if_neg hc2] at h
              exact Bool.noConfusion h
          | none =>
            rw [ho] at h
            dsimp only at h
            exact Bool.noConfusion h
  · intro tcMap lcaMap tc p blob s h
    unfold mergeStep2 at h ⊢
    dsimp only at h ⊢
    cases hl : lookupA lcaMap p with
    | none =>
      rw [hl] at h
      dsimp only at h
      exact Bool.noConfusion h
    | some lb =>
      rw [hl] at h
      dsimp only at h ⊢
      cases ht : lookupA tcMap p with
      | none =>
        rw [ht] at h
        dsimp only at h ⊢
        by_cases hd : ¬ lb.hash = blob.hash
        · rw [if_pos hd]
          rw [wdRead_add, wdRead_wdWrite_self]
        · rw [if_neg hd] at h
          dsimp only at h
          exact Bool.noConfusion h
      | some tblob =>
        rw [ht] at h
        dsimp only at h ⊢
        by_cases hc : lb.hash = blob.hash ∧ ¬ lb.hash = tblob.hash
        · rw [if_pos hc] at h
          rcases hco : checkout_commit s tc p with ⟨s1, e1⟩
          rw [hco] at h
          cases e1 with
          | some e =>
            dsimp only at h
            exact Bool.noConfusion h
          | none =>
            dsimp only at h
            exact Bool.noConfusion h
        · rw [if_neg hc] at h
          exact Bool.noConfusion h

/-- C5 witness: in the `w5` scenario, the first loop's body conflicts on
`f` (both sides modified) and writes `generate_conflict "b" "c"`, and the
second loop's body conflicts on `g` (deleted in the target side's map) and
writes `generate_conflict "d" "\n"`. -/
theorem C5_witness :
    ((mergeStep1 w5Origin.fileBlobMap w5Lca.fileBlobMap w5Target
        ("f", ⟨"f", "c", Diff.modified⟩) (w5State, false)).1.2 = true ∧
      wdRead (mergeStep1 w5Origin.fileBlobMap w5Lca.fileBlobMap w5Target
        ("f", ⟨"f", "c", Diff.modified⟩) (w5State, false)).1.1 "f" =
        some (generate_conflict "b" "c")) ∧
    ((mergeStep2 w5Origin.fileBlobMap w5Lca.fileBlobMap w5Target
        ("g", ⟨"g", "d", Diff.modified⟩) (w5State, false)).1.2 = true ∧
      wdRead (mergeStep2 w5Origin.fileBlobMap w5Lca.fileBlobMap w5Target
        ("g", ⟨"g", "d", Diff.modified⟩) (w5State, false)).1.1 "g" =
        some (generate_conflict "d" "\n")) :=
  ⟨⟨by decide,
    C5_conflict_format.2.1 w5Origin.fileBlobMap w5Lca.fileBlobMap w5Target
      "f" ⟨"f", "c", Diff.modified⟩ w5State (by decide)⟩,
   ⟨by decide,
    C5_conflict_format.2.2 w5Origin.fileBlobMap w5Lca.fileBlobMap w5Target
      "g" ⟨"g", "d", Diff.modified⟩ w5State (by decide)⟩⟩

end Pygitlet
